import Mathlib

/-!
Verification of the BREP editing / tessellation core
(`src/Tessellator.js`, `src/editModeManager.js` half-edge variant).

Conventions of the shallow embedding:

* JS numbers are modelled as rationals (`ℚ`).  All arithmetic appearing in
  the embedded code paths is division free: every tolerance comparison of
  the source (`x < 0.001`, `length < 1e-10`, ...) is rendered in the
  equivalent cross-multiplied form (`1000 * x < 1`, ...), and the projection
  axis of a face is chosen by comparing the unnormalised cross product
  components, which orders exactly as the normalised ones (the source
  divides all three components by the same positive length).
* External libraries are oracles: `earcut` is a parameter
  `List ℚ → Option (List ℕ)` (`none` models the call throwing), Babylon's
  `VertexData.ComputeNormals` is a parameter `List ℚ → List ℕ → List ℚ`,
  and the transcendental `atan2`-based angle of `orderVerticesByAngle` is a
  parameter `ℕ → ℕ → ℚ` (the theorems hold for every oracle, hence for the
  real functions).
* Mutable JS objects (mda `Vertex`/`Edge`/`HalfEdge`/`Face`) live in
  append-only stores addressed by ids; the arrays `brep.vertices`,
  `brep.edges`, ... hold ids.  Reference identity becomes id equality.
* JS exceptions are `Except.error`; the monad `σ → Except String α × σ`
  keeps the state on error, matching in-place mutation that survives a
  thrown exception.  A walk that would loop forever in JS exhausts its fuel
  and is reported as an error as well (none of the theorems distinguishes
  the two situations).
* `undefined` and `null` object references are `Option`; the half-edge
  `face` field is `Option (Option ℕ)` because the source distinguishes a
  never-set face (`undefined`) from an explicit `setFace(null)`.
-/

attribute [local semireducible] Rat.add Rat.sub Rat.mul

namespace SnapBrep

/-- JS `Math.abs` on rationals, kept as a plain `if` so it evaluates. -/
def qabs (a : ℚ) : ℚ := if a < 0 then -a else a

/-- Vector with three rational components (Babylon `Vector3`). -/
structure Vec3 where
  x : ℚ
  y : ℚ
  z : ℚ
deriving DecidableEq

/-- Babylon `Vector3.FromArray`: missing entries are read as 0 here; in the
embedded paths the rows are either full (length at least 3) or the result
is unused, so the difference with the JS `NaN` propagation is unobservable. -/
def Vec3.fromArray (row : List ℚ) : Vec3 :=
  ⟨row.getD 0 0, row.getD 1 0, row.getD 2 0⟩

def Vec3.sub (a b : Vec3) : Vec3 := ⟨a.x - b.x, a.y - b.y, a.z - b.z⟩

def Vec3.cross (a b : Vec3) : Vec3 :=
  ⟨a.y * b.z - a.z * b.y, a.z * b.x - a.x * b.z, a.x * b.y - a.y * b.x⟩

def Vec3.lengthSq (a : Vec3) : ℚ := a.x * a.x + a.y * a.y + a.z * a.z

/-- First-occurrence deduplication, the iteration order of a JS `Set`. -/
def dedupFirst {α : Type} [DecidableEq α] : List α → List α
  | [] => []
  | a :: t => a :: (dedupFirst t).filter (fun x => ¬ x = a)

/-- JS `Set.add`: append the element unless it is already present. -/
def addUnique {α : Type} [DecidableEq α] (l : List α) (a : α) : List α :=
  if a ∈ l then l else l ++ [a]

/-- Normalised unordered key of an endpoint pair (the edge-map key). -/
def pairKey (a b : ℕ) : ℕ × ℕ := (min a b, max a b)

/-! The half-edge arena.  Records are mutable JS objects; the `Brep`
structure owns the stores and the entity sequences of the mda `Mesh`. -/

/-- mda `Vertex`: an index and a reference to one outgoing half-edge. -/
structure VRec where
  index : ℕ
  halfEdge : Option ℕ
deriving DecidableEq

/-- mda `Edge`: an index and a reference to one of its half-edges. -/
structure ERec where
  index : ℕ
  halfEdge : Option ℕ
deriving DecidableEq

/-- mda `HalfEdge`: origin vertex, edge, face (undefined / null / set),
next and flip references. -/
structure HRec where
  vertex : Option ℕ
  edge : Option ℕ
  face : Option (Option ℕ)
  nextHE : Option ℕ
  flip : Option ℕ
deriving DecidableEq

/-- mda `Face`: an index and a reference to one half-edge of its loop. -/
structure FRec where
  index : ℕ
  halfEdge : Option ℕ
deriving DecidableEq

/-- The mda `Mesh` (BREP): position rows, the four entity sequences (as id
lists) and the backing stores, plus the derived edge map and cells. -/
structure Brep where
  positions : List (List ℚ)
  vertices : List ℕ
  edges : List ℕ
  halfEdges : List ℕ
  faces : List ℕ
  vrecs : List VRec
  erecs : List ERec
  hrecs : List HRec
  frecs : List FRec
  edgeMap : List ((ℕ × ℕ) × ℕ)
  cells : List (List ℕ)
deriving DecidableEq

def vrecD (m : Brep) (i : ℕ) : VRec := m.vrecs.getD i ⟨0, none⟩

def erecD (m : Brep) (i : ℕ) : ERec := m.erecs.getD i ⟨0, none⟩

def hrecD (m : Brep) (i : ℕ) : HRec := m.hrecs.getD i ⟨none, none, none, none, none⟩

def frecD (m : Brep) (i : ℕ) : FRec := m.frecs.getD i ⟨0, none⟩

/-- JS object comparison `he.getFace() === someFaceObjectOrUndefined`:
the left side may be undefined (`none`), null (`some none`) or a face
(`some (some f)`); the right side is a face or undefined. -/
def faceEqObj (face : Option (Option ℕ)) (obj : Option ℕ) : Bool :=
  match face, obj with
  | none, none => true
  | some (some f), some g => f = g
  | _, _ => false

/-! Fueled walks for the mda queries.  Each models the corresponding JS
do-while loop, raising an error where JS would dereference `undefined`. -/

/-- One face loop walk collecting the origin vertex references, shared by
mda `FaceVertices` and the manager's own `getFaceVertices` (both walk
`next` from the face's half-edge pushing `getVertex()`). -/
def faceLoopGo (m : Brep) (start : ℕ) :
    ℕ → ℕ → List (Option ℕ) → Except String (List (Option ℕ))
  | 0, _, _ => .error "face loop does not terminate"
  | fuel + 1, cur, acc =>
    let acc := acc ++ [(hrecD m cur).vertex]
    match (hrecD m cur).nextHE with
    | none => .error "getVertex of undefined"
    | some nxt =>
      if nxt = start then .ok acc else faceLoopGo m start fuel nxt acc

def faceVerticesQ (m : Brep) (f : ℕ) : Except String (List (Option ℕ)) :=
  match (frecD m f).halfEdge with
  | none => .error "getVertex of undefined"
  | some start => faceLoopGo m start (m.hrecs.length + 1) start []

/-- mda vertex circulation `he := he.flip.next`, collecting the visited
half-edges (`VertexHalfEdges`; the other vertex queries map over it). -/
def vertexWalkGo (m : Brep) (start : ℕ) :
    ℕ → ℕ → List ℕ → Except String (List ℕ)
  | 0, _, _ => .error "vertex walk does not terminate"
  | fuel + 1, cur, acc =>
    let acc := acc ++ [cur]
    match (hrecD m cur).flip with
    | none => .error "getNextHalfEdge of undefined"
    | some fl =>
      match (hrecD m fl).nextHE with
      | none => .error "getFlipHalfEdge of undefined"
      | some nxt =>
        if nxt = start then .ok acc else vertexWalkGo m start fuel nxt acc

def vertexHalfEdgesQ (m : Brep) (v : ℕ) : Except String (List ℕ) :=
  match (vrecD m v).halfEdge with
  | none => .error "getFlipHalfEdge of undefined"
  | some start => vertexWalkGo m start (m.hrecs.length + 1) start []

def vertexFacesQ (m : Brep) (v : ℕ) : Except String (List (Option (Option ℕ))) :=
  (vertexHalfEdgesQ m v).map (fun hes => hes.map (fun h => (hrecD m h).face))

def vertexEdgesQ (m : Brep) (v : ℕ) : Except String (List (Option ℕ)) :=
  (vertexHalfEdgesQ m v).map (fun hes => hes.map (fun h => (hrecD m h).edge))

/-- mda `VertexNeighbors`: the origin vertex of the flip of every outgoing
half-edge (the vertex reachable along that edge). -/
def vertexNeighborsQ (m : Brep) (v : ℕ) : Except String (List (Option ℕ)) :=
  (vertexHalfEdgesQ m v).map (fun hes =>
    hes.map (fun h =>
      match (hrecD m h).flip with
      | some fl => (hrecD m fl).vertex
      | none => none))

/-- mda `HalfEdgePrev`: follow `next` until it returns to the argument. -/
def halfEdgePrevGo (m : Brep) (target : ℕ) :
    ℕ → ℕ → Except String ℕ
  | 0, _ => .error "half-edge prev does not terminate"
  | fuel + 1, cur =>
    match (hrecD m cur).nextHE with
    | none => .error "getNextHalfEdge of undefined"
    | some nxt => if nxt = target then .ok cur else halfEdgePrevGo m target fuel nxt

def halfEdgePrevQ (m : Brep) (he : ℕ) : Except String ℕ :=
  halfEdgePrevGo m he (m.hrecs.length + 1) he

/-! A state-and-exception monad.  The state is kept when an error is
raised: JS exceptions do not undo the in-place mutations already
committed to the mesh. -/

deriving instance DecidableEq for Except

def StE (σ α : Type) : Type := σ → Except String α × σ

/-- Sequential iteration (JS `forEach`) in the state monad. -/
def forEachE {σ α : Type} : List α → (α → StE σ Unit) → StE σ Unit
  | [], _ => fun s => (.ok (), s)
  | a :: t, f => fun s =>
    match f a s with
    | (.ok _, s') => forEachE t f s'
    | (.error e, s') => (.error e, s')

/-- Left fold in the state monad (the new-face `forEach` carrying its
`previousHE` accumulator). -/
def foldME {σ α β : Type} : List α → (β → α → StE σ β) → β → StE σ β
  | [], _, b => fun s => (.ok b, s)
  | a :: t, f, b => fun s =>
    match f b a s with
    | (.ok b', s') => foldME t f b' s'
    | (.error e, s') => (.error e, s')

/-! The tessellator (`src/Tessellator.js`). -/

/-- The instance fields of the `Tessellator` class. -/
structure TessState where
  verData : List ℚ
  indices : List ℕ
  uvData : List ℚ
  faceFacetMapping : List (ℕ × List ℕ)
  facetID : ℤ
  nBabylonVertices : ℕ
deriving DecidableEq

/-- `Tessellator.flush`: every accumulator field is reset. -/
def flush : TessState :=
  { verData := [], indices := [], uvData := [], faceFacetMapping := [],
    facetID := -1, nBabylonVertices := 0 }

/-- The external `earcut` call: the flattened 2D path is mapped to the
triangle index list; `none` models the call throwing. -/
def Earcut : Type := List ℚ → Option (List ℕ)

/-- Babylon `VertexData.ComputeNormals`, a pure function of the position
and index buffers. -/
def ComputeNormals : Type := List ℚ → List ℕ → List ℚ

/-- JS object property write `this.faceFacetMapping[index] = []`. -/
def setAssoc (l : List (ℕ × List ℕ)) (k : ℕ) (v : List ℕ) : List (ℕ × List ℕ) :=
  if l.any (fun p => p.1 = k) then
    l.map (fun p => if p.1 = k then (k, v) else p)
  else l ++ [(k, v)]

/-- Projection plane choice of `_populateIndices`.  The source normalises
the cross product before comparing component magnitudes; dividing the
three components by the same positive length does not change those
comparisons, so the unnormalised components are compared here, and
`length < 1e-10` becomes `10^20 * lengthSq < 1`. -/
def getProjectionIndices (positions : List (List ℚ)) : ℕ × ℕ :=
  if positions.length < 3 then (0, 2)
  else
    let p0 := Vec3.fromArray (positions.getD 0 [])
    let p1 := Vec3.fromArray (positions.getD 1 [])
    let p2 := Vec3.fromArray (positions.getD 2 [])
    let v1 := p1.sub p0
    let v2 := p2.sub p0
    let normal := v1.cross v2
    if 100000000000000000000 * 100000000000000000000 * normal.lengthSq < 1 then
      (0, 2)
    else
      let nx := qabs normal.x
      let ny := qabs normal.y
      let nz := qabs normal.z
      if ny ≥ nx ∧ ny ≥ nz then (0, 2)
      else if nz ≥ nx then (0, 1)
      else (1, 2)

/-- The projection loop of the `try` block: each vertex row is validated
(`length < 3` throws `Invalid vertex data`, modelled by `none`) and its
two projected coordinates are appended. -/
def buildEarcutPath (pi : ℕ × ℕ) : List (List ℚ) → Option (List ℚ)
  | [] => some []
  | row :: rest =>
    if row.length < 3 then none
    else
      match buildEarcutPath pi rest with
      | some path => some ([row.getD pi.1 0, row.getD pi.2 0] ++ path)
      | none => none

/-- The guarded index append of the earcut branch.  `total` is the current
`verData` length; the JS division is exact whenever every emitted row had
three entries, which the index-validity theorem assumes. -/
def guardedAppend (nB total : ℕ) (indices : List ℕ) (triangles : List ℕ) : List ℕ :=
  triangles.foldl
    (fun acc point => acc ++ (if point + nB ≥ total / 3 then [] else [point + nB]))
    indices

/-- The fan fallback of the `catch` block: triangles `(0, i, i+1)` offset
by the face's base vertex index, for `1 ≤ i ≤ n - 2` (empty when the face
has fewer than 3 vertices, matching the JS loop bounds). -/
def fanIndices (nB n : ℕ) : List ℕ :=
  (List.range (n - 2)).foldl (fun acc i => acc ++ [nB, nB + (i + 1), nB + (i + 2)]) []

/-- `Tessellator._populateIndices`: earcut on the projected polygon; an
empty (or null) result is only diagnosed and contributes nothing; a thrown
error (invalid vertex row, or the earcut call itself) falls back to the
fan triangulation. -/
def populateIndices (ec : Earcut) (fp : List (List ℚ)) (s : TessState) : List ℕ :=
  let pi := getProjectionIndices fp
  match buildEarcutPath pi fp with
  | none => s.indices ++ fanIndices s.nBabylonVertices fp.length
  | some path =>
    match ec path with
    | none => s.indices ++ fanIndices s.nBabylonVertices fp.length
    | some [] => s.indices
    | some triangles => guardedAppend s.nBabylonVertices s.verData.length s.indices triangles

/-- `Tessellator._populatePositions`: rows are spread-pushed one by one; a
missing row (`positions[i]` undefined) throws when spread. -/
def populatePositions : List (Option (List ℚ)) → List ℚ → Except String (List ℚ) × List ℚ
  | [], acc => (.ok acc, acc)
  | some row :: rest, acc => populatePositions rest (acc ++ row)
  | none :: _, acc => (.error "spread of undefined", acc)

/-- `Tessellator._tessellateFace` for one face: record the (empty) facet
mapping entry, gather the face's vertex position rows, append them to the
position accumulator, triangulate, and update the vertex base count.
Written in explicit state-passing form. -/
def tessellateFace (ec : Earcut) (m : Brep) (faceId : ℕ) : StE TessState Unit :=
  fun s =>
    let index := (frecD m faceId).index
    let s := { s with faceFacetMapping := setAssoc s.faceFacetMapping index [] }
    match faceVerticesQ m faceId with
    | .error e => (.error e, s)
    | .ok faceVs =>
      let facePositions := faceVs.map (fun v? =>
        match v? with
        | none => none
        | some v => m.positions.get? (vrecD m v).index)
      match populatePositions facePositions s.verData with
      | (.error e, partialData) => (.error e, { s with verData := partialData })
      | (.ok newVer, _) =>
        let rows := facePositions.map (fun r => r.getD [])
        let s1 := { s with verData := newVer }
        let s2 := { s1 with indices := populateIndices ec rows s1 }
        (.ok (), { s2 with nBabylonVertices := s2.verData.length / 3 })

/-- The geometry record assembled by `tessellate` (position, UV, index and
normal buffers of the Babylon `Geometry`). -/
structure Geometry where
  positions : List ℚ
  uvs : List ℚ
  indices : List ℕ
  normals : List ℚ
deriving DecidableEq

/-- The record returned by `Tessellator.tessellate`. -/
structure TessResult where
  geometry : Option Geometry
  faceFacetMapping : Option (List (ℕ × List ℕ))
deriving DecidableEq

/-- `Tessellator.tessellate`.  A falsy mesh returns the null record without
touching the instance state; otherwise the accumulators are flushed, every
face is tessellated, and the buffers are packaged.  (The Float32Array
normalisation of the position rows is the identity on the list model.) -/
def tessellate (ec : Earcut) (cn : ComputeNormals) (brep? : Option Brep) :
    StE TessState TessResult :=
  match brep? with
  | none => fun s => (.ok { geometry := none, faceFacetMapping := none }, s)
  | some m => fun _ =>
    match forEachE m.faces (fun f => tessellateFace ec m f) flush with
    | (.error e, st) => (.error e, st)
    | (.ok _, st) =>
      let normals := cn st.verData st.indices
      (.ok { geometry := some { positions := st.verData, uvs := st.uvData,
                                indices := st.indices, normals := normals },
             faceFacetMapping := some st.faceFacetMapping }, st)

/-! The edit-mode manager (`editModeManager.js`, half-edge variant):
`orderVerticesByAngle`, `findVertexBelow`, `updateFaceWithoutVertex`,
`deleteVertexPairAndUpdateBREP` and the BREP core of
`handleVertexSelection`. -/

/-- The angle oracle: the `atan2`-based angle the source computes for the
vertex `vertexIndices[i]` from the plane normal, centroid and in-plane
basis (all transcendental real arithmetic).  The theorems hold for every
oracle, hence for the real angles. -/
def AngleKey : Type := ℕ → ℕ → ℚ

/-- `orderVerticesByAngle`: fewer than 3 indices are returned unchanged;
otherwise each index is paired with its angle and the pairs are sorted
ascending (JS `sort` with the numeric comparator; a stable comparison
sort, modelled by insertion sort) and the indices extracted.  The
`positions` argument feeds the angle computation, which the oracle
absorbs. -/
def orderVerticesByAngle (key : AngleKey) (vertexIndices : List ℕ)
    (positions : List (List ℚ)) : List ℕ :=
  if vertexIndices.length < 3 then vertexIndices
  else
    let withAngles := vertexIndices.enum.map (fun p => (p.2, key p.2 p.1))
    let sorted := withAngles.insertionSort (fun a b => a.2 ≤ b.2)
    sorted.map (fun v => v.1)

/-- The filter predicate of `findVertexBelow`
(`positions[v.getIndex()][1] < positions[selected.getIndex()][1]`),
defined when both rows exist; comparisons against a missing `[1]` entry
are false, as in JS. -/
def isBelow (m : Brep) (sel : ℕ) (u : ℕ) : Bool :=
  match m.positions.get? (vrecD m u).index, m.positions.get? (vrecD m sel).index with
  | some row, some selRow =>
    match row.get? 1, selRow.get? 1 with
    | some a, some b => a < b
    | _, _ => false
  | _, _ => false

/-- The `neighbors.filter(...)` loop: an undefined neighbor or a missing
position row throws, otherwise the row comparison decides membership. -/
def filterBelow (m : Brep) (sel : ℕ) : List (Option ℕ) → Except String (List ℕ)
  | [] => .ok []
  | none :: _ => .error "getIndex of undefined"
  | some v :: rest =>
    match m.positions.get? (vrecD m v).index with
    | none => .error "cannot read property 1 of undefined"
    | some row =>
      match m.positions.get? (vrecD m sel).index with
      | none => .error "cannot read property 1 of undefined"
      | some selRow =>
        match filterBelow m sel rest with
        | .error e => .error e
        | .ok rest' =>
          let keep : Bool :=
            match row.get? 1, selRow.get? 1 with
            | some a, some b => a < b
            | _, _ => false
          .ok (if keep then v :: rest' else rest')

/-- The Y value of a vertex, with default 0 (used only as sort key, where
every key is defined whenever the code reaches the sort). -/
def getYD (m : Brep) (v : ℕ) : ℚ :=
  ((m.positions.get? (vrecD m v).index).bind (fun row => row.get? 1)).getD 0

/-- `findVertexBelow`: among the topological neighbors, those with
strictly smaller Y, sorted ascending by Y; the first one, or null. -/
def findVertexBelow (m : Brep) (selectedVertex : ℕ) : Except String (Option ℕ) :=
  match vertexNeighborsQ m selectedVertex with
  | .error e => .error e
  | .ok neighbors =>
    match filterBelow m selectedVertex neighbors with
    | .error e => .error e
    | .ok below =>
      match below.insertionSort (fun a b => getYD m a ≤ getYD m b) with
      | [] => .ok none
      | v :: _ => .ok (some v)

/-! Record mutators (JS setters on the arena records). -/

def setVRec (i : ℕ) (f : VRec → VRec) (m : Brep) : Brep :=
  { m with vrecs := m.vrecs.set i (f (vrecD m i)) }

def setERec (i : ℕ) (f : ERec → ERec) (m : Brep) : Brep :=
  { m with erecs := m.erecs.set i (f (erecD m i)) }

def setHRec (i : ℕ) (f : HRec → HRec) (m : Brep) : Brep :=
  { m with hrecs := m.hrecs.set i (f (hrecD m i)) }

def setFRec (i : ℕ) (f : FRec → FRec) (m : Brep) : Brep :=
  { m with frecs := m.frecs.set i (f (frecD m i)) }

/-- Allocate a new edge object and push it onto `brep.edges`. -/
def pushEdgeP (r : ERec) (m : Brep) : ℕ × Brep :=
  (m.erecs.length,
   { m with erecs := m.erecs ++ [r], edges := m.edges ++ [m.erecs.length] })

/-- Allocate a new half-edge object and push it onto `brep.halfEdges`. -/
def pushHalfEdgeP (r : HRec) (m : Brep) : ℕ × Brep :=
  (m.hrecs.length,
   { m with hrecs := m.hrecs ++ [r], halfEdges := m.halfEdges ++ [m.hrecs.length] })

/-- Allocate a new face object and push it onto `brep.faces`. -/
def pushFaceP (r : FRec) (m : Brep) : ℕ × Brep :=
  (m.frecs.length,
   { m with frecs := m.frecs ++ [r], faces := m.faces ++ [m.frecs.length] })

/-- `updateFaceWithoutVertex`: find the half-edge of `face` whose origin is
the vertex to remove (null and no mutation when absent), splice it out of
the loop with a fresh edge and half-edge, and redirect the face and vertex
references.  Written in explicit state-passing form. -/
def updateFaceWithoutVertex (face v : ℕ) : StE Brep (Option ℕ) := fun m =>
  match vertexHalfEdgesQ m v with
  | .error e => (.error e, m)
  | .ok hes =>
    match hes.find? (fun he => faceEqObj (hrecD m he).face (some face)) with
    | none => (.ok none, m)
    | some heRem =>
      match halfEdgePrevQ m heRem with
      | .error e => (.error e, m)
      | .ok prevHE =>
        let nextHE? := (hrecD m heRem).nextHE
        let prevV? := (hrecD m prevHE).vertex
        let ea := pushEdgeP { index := m.edges.length, halfEdge := none } m
        let ha := pushHalfEdgeP
          { vertex := prevV?, edge := some ea.1, face := some (some face),
            nextHE := none, flip := none } ea.2
        let mC := setERec ea.1 (fun r => { r with halfEdge := some ha.1 }) ha.2
        match halfEdgePrevQ mC prevHE with
        | .error e => (.error e, mC)
        | .ok prevPrev =>
          let mD := setHRec prevPrev (fun r => { r with nextHE := some ha.1 }) mC
          let mE := setHRec ha.1 (fun r => { r with nextHE := nextHE? }) mD
          let mF := setFRec face (fun r => { r with halfEdge := some ha.1 }) mE
          match prevV? with
          | none => (.error "setHalfEdge of undefined", mF)
          | some pv =>
            (.ok (some ha.1),
             setVRec pv (fun r => { r with halfEdge := some ha.1 }) mF)

/-- The Y entry of the position row of a vertex: reading a missing row
throws (JS `undefined[1]`), a short row yields no value. -/
def rowYAt (m : Brep) (v : ℕ) : Except String (Option ℚ) :=
  match m.positions.get? (vrecD m v).index with
  | none => .error "cannot read property 1 of undefined"
  | some row => .ok (row.get? 1)

/-- The all-vertices-near-Y test of the top/bottom face search; an
undefined target (missing coordinate) fails every comparison. -/
def allAtY (m : Brep) (vs : List (Option ℕ)) (target? : Option ℚ) :
    Except String Bool :=
  match vs with
  | [] => .ok true
  | none :: _ => .error "getIndex of undefined"
  | some v :: rest =>
    match m.positions.get? (vrecD m v).index with
    | none => .error "cannot read property 1 of undefined"
    | some row =>
      let here : Bool :=
        match row.get? 1, target? with
        | some y, some t => 1000 * qabs (y - t) < 1
        | _, _ => false
      if here then allAtY m rest target? else .ok false

/-- `Array.prototype.find` over the collected faces: evaluating the
predicate on a null or undefined entry throws (`getFaceVertices` walks
from `face.getHalfEdge()`). -/
def findFaceAllAtY (m : Brep) (faces : List (Option (Option ℕ)))
    (target? : Option ℚ) : Except String (Option ℕ) :=
  match faces with
  | [] => .ok none
  | none :: _ => .error "getHalfEdge of undefined"
  | some none :: _ => .error "getHalfEdge of null"
  | some (some f) :: rest =>
    match faceVerticesQ m f with
    | .error e => .error e
    | .ok vs =>
      match allAtY m vs target? with
      | .error e => .error e
      | .ok true => .ok (some f)
      | .ok false => findFaceAllAtY m rest target?

/-- The face-loop deletion walk of lines 493-498: starting after `he`,
every half-edge of the face is added to the deletion set until the walk
returns to `he`. -/
def collectLoopDeletes (m : Brep) (stop : ℕ) :
    ℕ → ℕ → List (Option ℕ) → Except String (List (Option ℕ))
  | 0, _, _ => .error "face loop does not terminate"
  | fuel + 1, cur, acc =>
    match (hrecD m cur).nextHE with
    | none => .error "getNextHalfEdge of undefined"
    | some nxt =>
      let acc := addUnique acc (some nxt)
      if nxt = stop then .ok acc else collectLoopDeletes m stop fuel nxt acc

/-- Lines 475-481: every edge around the two vertices, its stored
half-edge and that half-edge's flip are marked for deletion. -/
def collectEdgeDeletes (m : Brep) :
    List (Option ℕ) → List (Option ℕ) × List (Option ℕ) →
    Except String (List (Option ℕ) × List (Option ℕ))
  | [], acc => .ok acc
  | none :: _, _ => .error "getHalfEdge of undefined"
  | some e :: rest, acc =>
    match (erecD m e).halfEdge with
    | none => .error "getFlipHalfEdge of undefined"
    | some he =>
      let flip? := (hrecD m he).flip
      let edel := addUnique acc.1 (some e)
      let hdel := addUnique (addUnique acc.2 (some he)) flip?
      collectEdgeDeletes m rest (edel, hdel)

/-- One step of the `forEach` over the half-edges of the two vertices
(lines 484-506): mark the half-edge, its edge and its flip for deletion;
for a face that is neither top nor bottom, mark the whole face loop and
collect the orphan half-edge `he.next.next.flip` when its origin is
neither deleted vertex. -/
def processOneVertexHE (m : Brep) (topFace? bottomFace? : Option ℕ) (v1 v2 : ℕ)
    (acc : List (Option ℕ) × List (Option ℕ) × List ℕ) (he : ℕ) :
    Except String (List (Option ℕ) × List (Option ℕ) × List ℕ) :=
  let face := (hrecD m he).face
  let hdel := addUnique acc.2.1 (some he)
  let edel := addUnique acc.1 ((hrecD m he).edge)
  let hdel :=
    match (hrecD m he).flip with
    | some fl => addUnique hdel (some fl)
    | none => hdel
  if ¬ faceEqObj face topFace? ∧ ¬ faceEqObj face bottomFace? then
    match collectLoopDeletes m he (m.hrecs.length + 1) he hdel with
    | .error e => .error e
    | .ok hdel =>
      match (hrecD m he).nextHE with
      | none => .error "getNextHalfEdge of undefined"
      | some n1 =>
        match (hrecD m n1).nextHE with
        | none => .error "getFlipHalfEdge of undefined"
        | some n2 =>
          match (hrecD m n2).flip with
          | none => .ok (edel, hdel, acc.2.2)
          | some orphan =>
            let ov := (hrecD m orphan).vertex
            if ov ≠ some v1 ∧ ov ≠ some v2 then
              .ok (edel, hdel, addUnique acc.2.2 orphan)
            else
              .ok (edel, hdel, acc.2.2)
  else
    .ok (edel, hdel, acc.2.2)

def processVertexHEs (m : Brep) (topFace? bottomFace? : Option ℕ) (v1 v2 : ℕ) :
    List ℕ → (List (Option ℕ) × List (Option ℕ) × List ℕ) →
    Except String (List (Option ℕ) × List (Option ℕ) × List ℕ)
  | [], acc => .ok acc
  | he :: rest, acc =>
    match processOneVertexHE m topFace? bottomFace? v1 v2 acc he with
    | .error e => .error e
    | .ok acc' => processVertexHEs m topFace? bottomFace? v1 v2 rest acc'

/-- Vertex objects of the disjoint half-edges mapped to their indices
(lines 509-510); an undefined vertex reference throws at `getIndex`. -/
def disjointIndices (m : Brep) : List ℕ → Except String (List ℕ)
  | [] => .ok []
  | he :: rest =>
    match (hrecD m he).vertex with
    | none => .error "getIndex of undefined"
    | some v =>
      match disjointIndices m rest with
      | .error e => .error e
      | .ok l => .ok ((vrecD m v).index :: l)

/-- mda `Mesh.getEdge` backed by the (possibly stale) edge map, keyed by
the unordered endpoint pair. -/
def getEdgeByIndices (m : Brep) (a b : ℕ) : Option ℕ :=
  (m.edgeMap.find? (fun p => p.1 = pairKey a b)).map (fun p => p.2)

/-- The dynamically attached `brep.getHalfEdge(vStart, vEnd)`: scan
`brep.halfEdges` for a half-edge whose origin index is `vStart` and whose
successor origin index is `vEnd`; dereferencing an unset vertex or next
reference mid-scan throws, exactly where JS would. -/
def getHalfEdgeScan (m : Brep) (vStart vEnd : ℕ) :
    List ℕ → Except String (Option ℕ)
  | [] => .ok none
  | he :: rest =>
    match (hrecD m he).vertex with
    | none => .error "getIndex of undefined"
    | some vid =>
      if (vrecD m vid).index = vStart then
        match (hrecD m he).nextHE with
        | none => .error "getVertex of undefined"
        | some n =>
          match (hrecD m n).vertex with
          | none => .error "getIndex of undefined"
          | some nv =>
            if (vrecD m nv).index = vEnd then .ok (some he)
            else getHalfEdgeScan m vStart vEnd rest
      else getHalfEdgeScan m vStart vEnd rest

/-- One iteration of the new-face construction loop (lines 525-561):
reuse or allocate the edge, push the new half-edge for the face, link it
after the previous one, and find or create its flip. -/
def newFaceStep (newFaceId : ℕ) (ordered : List ℕ) (prevHE? : Option ℕ)
    (iv : ℕ × ℕ) : StE Brep (Option ℕ) := fun m =>
  let nextVIndex := ordered.getD ((iv.1 + 1) % ordered.length) 0
  let ea :=
    match getEdgeByIndices m iv.2 nextVIndex with
    | some e => (e, m)
    | none => pushEdgeP { index := m.edges.length, halfEdge := none } m
  let ha := pushHalfEdgeP
    { vertex := ea.2.vertices.get? iv.2, edge := some ea.1,
      face := some (some newFaceId), nextHE := none, flip := none } ea.2
  let mC := setERec ea.1 (fun r => { r with halfEdge := some ha.1 }) ha.2
  let mD :=
    match prevHE? with
    | some p => setHRec p (fun r => { r with nextHE := some ha.1 }) mC
    | none => mC
  match getHalfEdgeScan mD nextVIndex iv.2 mD.halfEdges with
  | .error e => (.error e, mD)
  | .ok (some ef) =>
    let mE := setHRec ha.1 (fun r => { r with flip := some ef }) mD
    (.ok (some ha.1), setHRec ef (fun r => { r with flip := some ha.1 }) mE)
  | .ok none =>
    let fa := pushHalfEdgeP
      { vertex := mD.vertices.get? nextVIndex, edge := some ea.1,
        face := some none, nextHE := none, flip := some ha.1 } mD
    (.ok (some ha.1), setHRec ha.1 (fun r => { r with flip := some fa.1 }) fa.2)

/-- The new-face loop plus the loop closure (lines 524-571): run the steps,
link the last pushed half-edge to the presumed first one of the loop, and
hand the face its half-edge. -/
def newFaceLoop (newFaceId : ℕ) (ordered : List ℕ) : StE Brep Unit := fun m =>
  match foldME ordered.enum (newFaceStep newFaceId ordered) none m with
  | (.error e, m1) => (.error e, m1)
  | (.ok _, m1) =>
    if 0 < ordered.length then
      match m1.halfEdges.getLast? with
      | none => (.error "setNextHalfEdge of undefined", m1)
      | some lastHE =>
        let m2 := setHRec lastHE (fun r =>
          { r with nextHE := m1.halfEdges.get? (m1.halfEdges.length - ordered.length) }) m1
        (.ok (), setFRec newFaceId (fun r => { r with halfEdge := m2.halfEdges.getLast? }) m2)
    else
      (.ok (), setFRec newFaceId (fun r => { r with halfEdge := m1.halfEdges.getLast? }) m1)

/-- The data `deleteVertexPairAndUpdateBREP` accumulates before creating
the new face: the three deletion sets and the ordered gap boundary. -/
structure DvpData where
  edgesToDelete : List (Option ℕ)
  halfEdgesToDelete : List (Option ℕ)
  facesToDelete : List (Option (Option ℕ))
  ordered : List ℕ
deriving DecidableEq

/-- The read-only analysis prefix of `deleteVertexPairAndUpdateBREP`
(lines 417-455): incident faces and edges of both vertices, top and
bottom face, the face deletion set and the half-edges of both vertices,
all computed on the unmutated mesh. -/
structure DvpAnalysis where
  allVertexEdges : List (Option ℕ)
  topFace? : Option ℕ
  bottomFace? : Option ℕ
  facesToDelete : List (Option (Option ℕ))
  vertexHalfEdges : List ℕ
deriving DecidableEq

def dvpAnalyze (m0 : Brep) (v1 v2 : ℕ) : Except String DvpAnalysis :=
  match vertexFacesQ m0 v1 with
  | .error e => .error e
  | .ok v1FacesRaw =>
  match vertexFacesQ m0 v2 with
  | .error e => .error e
  | .ok v2FacesRaw =>
  match vertexEdgesQ m0 v1 with
  | .error e => .error e
  | .ok v1Edges =>
  match vertexEdgesQ m0 v2 with
  | .error e => .error e
  | .ok v2Edges =>
  match rowYAt m0 v1 with
  | .error e => .error e
  | .ok vertex1Y? =>
  match rowYAt m0 v2 with
  | .error e => .error e
  | .ok vertex2Y? =>
  let vertex1Faces := dedupFirst v1FacesRaw
  let vertex2Faces := dedupFirst v2FacesRaw
  let maxY? := match vertex1Y?, vertex2Y? with
    | some a, some b => some (max a b)
    | _, _ => none
  let minY? := match vertex1Y?, vertex2Y? with
    | some a, some b => some (min a b)
    | _, _ => none
  match findFaceAllAtY m0 vertex1Faces maxY? with
  | .error e => .error e
  | .ok topFace? =>
  match findFaceAllAtY m0 vertex2Faces minY? with
  | .error e => .error e
  | .ok bottomFace? =>
  match vertexHalfEdgesQ m0 v1 with
  | .error e => .error e
  | .ok vertex1HalfEdges =>
  match vertexHalfEdgesQ m0 v2 with
  | .error e => .error e
  | .ok vertex2HalfEdges =>
    .ok { allVertexEdges := dedupFirst (v1Edges ++ v2Edges)
          topFace? := topFace?
          bottomFace? := bottomFace?
          facesToDelete := (dedupFirst (vertex1Faces ++ vertex2Faces)).filter
            (fun f => ¬ faceEqObj f topFace? ∧ ¬ faceEqObj f bottomFace?)
          vertexHalfEdges := vertex1HalfEdges ++ vertex2HalfEdges }

/-- Lines 417-510 of `deleteVertexPairAndUpdateBREP`: the analysis, the
top- and bottom-face updates (the only mutations of this part), the
deletion sets and the angle-ordered gap boundary. -/
def dvpPartA (key : AngleKey) (v1 v2 : ℕ) : StE Brep DvpData := fun m0 =>
  match dvpAnalyze m0 v1 v2 with
  | .error e => (.error e, m0)
  | .ok a =>
    match (match a.topFace? with
           | some tf => updateFaceWithoutVertex tf v1 m0
           | none => (.ok none, m0)) with
    | (.error e, mA) => (.error e, mA)
    | (.ok d1?, mA) =>
      let disjoint0 := match d1? with
        | some d => addUnique [] d
        | none => []
      match (match a.bottomFace? with
             | some bf => updateFaceWithoutVertex bf v2 mA
             | none => (.ok none, mA)) with
      | (.error e, m1) => (.error e, m1)
      | (.ok d2?, m1) =>
        let disjoint1 := match d2? with
          | some d => addUnique disjoint0 d
          | none => disjoint0
        match collectEdgeDeletes m1 a.allVertexEdges ([], []) with
        | .error e => (.error e, m1)
        | .ok dels0 =>
        match processVertexHEs m1 a.topFace? a.bottomFace? v1 v2
            a.vertexHalfEdges (dels0.1, dels0.2, disjoint1) with
        | .error e => (.error e, m1)
        | .ok dels =>
        match disjointIndices m1 dels.2.2 with
        | .error e => (.error e, m1)
        | .ok newVertexIndices =>
          (.ok { edgesToDelete := dels.1
                 halfEdgesToDelete := dels.2.1
                 facesToDelete := a.facesToDelete
                 ordered := orderVerticesByAngle key newVertexIndices m1.positions },
           m1)

/-- Rows removed by position (`positions.filter((_, i) => !del.has(i))`). -/
def removeAtIndices {α : Type} (l : List α) (idxs : List ℕ) : List α :=
  (l.enum.filter (fun p => ¬ p.1 ∈ idxs)).map (fun p => p.2)

/-- mda `Mesh.buildEdgeMap`: recompute the endpoint-pair map from the
surviving edges.  The mda implementation is library code outside this
repository; modelled from the spec (an edge-by-endpoint-pair lookup map
rebuilt after mutations), total: edges with incomplete links are
skipped. -/
def computeEdgeMap (m : Brep) : List ((ℕ × ℕ) × ℕ) :=
  m.edges.foldl
    (fun acc e =>
      match (erecD m e).halfEdge with
      | none => acc
      | some he =>
        match (hrecD m he).vertex, ((hrecD m he).flip).bind
            (fun fl => (hrecD m fl).vertex) with
        | some a, some b => acc ++ [(pairKey (vrecD m a).index (vrecD m b).index, e)]
        | _, _ => acc)
    []

/-- Lines 574-595: purge the deletion sets, drop the two vertices and
their position rows, reindex the surviving entities and rebuild the
derived structures.  (`brep.cells = brep.getCells()` copies the accessor
result back and is the identity here.) -/
def dvpFinalize (v1 v2 : ℕ) (d : DvpData) : StE Brep Unit := fun m =>
  let mA := { m with
    edges := m.edges.filter (fun e => ¬ (some e) ∈ d.edgesToDelete)
    halfEdges := m.halfEdges.filter (fun h => ¬ (some h) ∈ d.halfEdgesToDelete) }
  let mB := { mA with
    vertices := mA.vertices.filter (fun v => ¬ (v = v1 ∨ v = v2)) }
  let indicesToDelete := [(vrecD mB v1).index, (vrecD mB v2).index]
  let mC := { mB with positions := removeAtIndices mB.positions indicesToDelete }
  let mD := { mC with
    faces := mC.faces.filter (fun f => ¬ (some (some f)) ∈ d.facesToDelete) }
  let mE := mD.vertices.enum.foldl
    (fun acc p => setVRec p.2 (fun r => { r with index := p.1 }) acc) mD
  let mF := mE.edges.enum.foldl
    (fun acc p => setERec p.2 (fun r => { r with index := p.1 }) acc) mE
  let mG := mF.faces.enum.foldl
    (fun acc p => setFRec p.2 (fun r => { r with index := p.1 }) acc) mF
  (.ok (), { mG with edgeMap := computeEdgeMap mG })

/-- `deleteVertexPairAndUpdateBREP`: part A, then the new capping face
(`setIndex(brep.faces.length)` and push), the boundary loop construction
and the final purge. -/
def deleteVertexPairAndUpdateBREP (key : AngleKey) (v1 v2 : ℕ) : StE Brep Unit :=
  fun m =>
    match dvpPartA key v1 v2 m with
    | (.error e, m1) => (.error e, m1)
    | (.ok d, m1) =>
      let fa := pushFaceP { index := m1.faces.length, halfEdge := none } m1
      match newFaceLoop fa.1 d.ordered fa.2 with
      | (.error e, m3) => (.error e, m3)
      | (.ok _, m3) => dvpFinalize v1 v2 d m3

/-- The BREP core of `handleVertexSelection`: find the vertex below (an
absent companion aborts before any mutation), then attempt the deletion
inside `try`/`catch` (the catch only logs; mutations already applied to
the BREP remain).  The remainder of the handler rebuilds the rendered
mesh through the tessellator and scene objects without mutating the BREP
(the Float32Array normalisation is the identity on the list model), so it
is not part of the BREP state transition. -/
def handleVertexSelectionBrep (key : AngleKey) (v : ℕ) : StE Brep Unit := fun m =>
  match findVertexBelow m v with
  | .error e => (.error e, m)
  | .ok none => (.ok (), m)
  | .ok (some v2) =>
    match deleteVertexPairAndUpdateBREP key v v2 m with
    | (.ok _, m') => (.ok (), m')
    | (.error _, m') => (.ok (), m')

/-! Construction of concrete meshes.  `buildFromCells` produces the
half-edge structure that `setPositions` / `setCells` / `process()` build
per the external interface (spec section 6): one half-edge per directed
cell step, flips paired by the reversed directed edge, one edge per
unordered endpoint pair, and the derived edge map. -/

/-- All directed steps `(face, origin, destination)` of the cell list, in
face order. -/
def directedSteps (cells : List (List ℕ)) : List (ℕ × ℕ × ℕ) :=
  (cells.enum).flatMap (fun fc =>
    (List.range fc.2.length).map (fun j =>
      (fc.1, fc.2.getD j 0, fc.2.getD ((j + 1) % fc.2.length) 0)))

/-- Assign edge ids to the directed steps, reusing the id of the reversed
direction: returns the edge id list (one per step) and the key map. -/
def assignEdges (steps : List (ℕ × ℕ × ℕ)) : List ℕ × List ((ℕ × ℕ) × ℕ) :=
  steps.foldl
    (fun acc step =>
      match acc.2.find? (fun p => p.1 = pairKey step.2.1 step.2.2) with
      | some p => (acc.1 ++ [p.2], acc.2)
      | none =>
        let e := acc.2.length
        (acc.1 ++ [e], acc.2 ++ [(pairKey step.2.1 step.2.2, e)]))
    ([], [])

def buildFromCells (positions : List (List ℚ)) (cells : List (List ℕ)) : Brep :=
  let steps := directedSteps cells
  let ea := assignEdges steps
  let stepEdges := ea.1
  let emap := ea.2
  let nHE := steps.length
  let firstOfFace := fun (f : ℕ) => steps.findIdx (fun s => s.1 = f)
  let hrecs := (steps.enum).map (fun (is : ℕ × ℕ × ℕ × ℕ) =>
    ({ vertex := some is.2.2.1,
       edge := stepEdges.get? is.1,
       face := some (some is.2.1),
       nextHE := some (if is.1 + 1 < nHE ∧ (steps.getD (is.1 + 1) (0, 0, 0)).1 = is.2.1
          then is.1 + 1 else firstOfFace is.2.1),
       flip := steps.findIdx? (fun t => t.2.1 = is.2.2.2 ∧ t.2.2 = is.2.2.1) } : HRec))
  let vrecs := (List.range positions.length).map (fun v =>
    ({ index := v, halfEdge := steps.findIdx? (fun s => s.2.1 = v) } : VRec))
  let erecs := (List.range emap.length).map (fun e =>
    ({ index := e, halfEdge := stepEdges.findIdx? (fun x => x = e) } : ERec))
  let frecs := (List.range cells.length).map (fun f =>
    ({ index := f, halfEdge := some (firstOfFace f) } : FRec))
  { positions := positions,
    vertices := List.range positions.length,
    edges := List.range emap.length,
    halfEdges := List.range nHE,
    faces := List.range cells.length,
    vrecs := vrecs, erecs := erecs, hrecs := hrecs, frecs := frecs,
    edgeMap := emap, cells := cells }

/-- A single triangular face (a minimal mesh for the tessellator). -/
def triMesh : Brep :=
  buildFromCells [[0, 0, 0], [1, 0, 0], [0, 0, 1]] [[0, 1, 2]]

/-- Two triangles glued back to back: the smallest closed half-edge mesh
(vertex 0 lowest, vertices 1 and 2 above it). -/
def dblTri : Brep :=
  buildFromCells [[0, 0, 0], [1, 1, 0], [0, 1, 1]] [[0, 1, 2], [2, 1, 0]]

/-- The near-tie doubled triangle of the atomicity analysis: vertex 1 sits
0.0005 below vertex 0 (inside the 0.001 tolerance), so the shared face
passes both the top-face and the bottom-face test, and on that face
vertex 1 immediately precedes vertex 0. -/
def c3Mesh : Brep :=
  buildFromCells
    [[0, 1, 0], [1, Rat.divInt 1999 2000, 0], [0, 1, 1]]
    [[1, 0, 2], [2, 0, 1]]

/-- The demo box of `create.js` (`addMesh` with the corrected cell
orientations): 8 vertices, 6 quadrilateral faces. -/
def cubeMesh : Brep :=
  buildFromCells
    [[5, 0, 5], [10, 0, 5], [9, 0, 10], [4, 0, 10],
     [5, 5, 5], [10, 5, 5], [9, 5, 10], [4, 5, 10]]
    [[0, 3, 2, 1], [4, 5, 6, 7], [0, 1, 5, 4],
     [1, 2, 6, 5], [2, 3, 7, 6], [3, 0, 4, 7]]


/-- The parts of the mesh that the pre-purge phases of the deletion
operator leave untouched: the vertex sequence, the position array, the
face sequence, the face store size and the stored vertex indices. -/
def sameCore (m m' : Brep) : Prop :=
  m'.vertices = m.vertices ∧ m'.positions = m.positions ∧ m'.faces = m.faces ∧
  m'.frecs.length = m.frecs.length ∧
  m'.vrecs.map VRec.index = m.vrecs.map VRec.index

/-- A stronger variant of `sameCore` for the new-face loop, which never
touches the vertex store at all. -/
def sameCoreV (m m' : Brep) : Prop :=
  m'.vertices = m.vertices ∧ m'.positions = m.positions ∧ m'.faces = m.faces ∧
  m'.frecs.length = m.frecs.length ∧ m'.vrecs = m.vrecs

/-- Well-formedness of a mesh, the data-model invariants of spec section 3
used by the counting theorem: vertex ids are unique in the sequence, the
position array parallels the vertex sequence, stored vertex indices are
in range and injective, and face references point into the face store. -/
structure WF (m : Brep) : Prop where
  nodupV : m.vertices.Nodup
  posLen : m.positions.length = m.vertices.length
  vIdxLt : ∀ v ∈ m.vertices, (vrecD m v).index < m.positions.length
  vIdxInj : ∀ u ∈ m.vertices, ∀ v ∈ m.vertices,
    (vrecD m u).index = (vrecD m v).index → u = v
  facesLt : ∀ f ∈ m.faces, f < m.frecs.length
  hfaceLt : ∀ hr ∈ m.hrecs, ∀ g, hr.face = some (some g) → g < m.frecs.length

/-! Theorems. -/

theorem sameCore_refl (m : Brep) : sameCore m m := ⟨rfl, rfl, rfl, rfl, rfl⟩

theorem sameCore_trans {a b c : Brep} (h1 : sameCore a b) (h2 : sameCore b c) :
    sameCore a c :=
  ⟨h2.1.trans h1.1, h2.2.1.trans h1.2.1, h2.2.2.1.trans h1.2.2.1,
   h2.2.2.2.1.trans h1.2.2.2.1, h2.2.2.2.2.trans h1.2.2.2.2⟩

theorem map_index_set_halfEdge (l : List VRec) (i : ℕ) (x : Option ℕ) :
    (l.set i { l.getD i ⟨0, none⟩ with halfEdge := x }).map VRec.index =
      l.map VRec.index := by
  induction l generalizing i with
  | nil => rfl
  | cons a t ih =>
    cases i with
    | zero => simp
    | succ n =>
      simp only [List.set, List.getD_cons_succ, List.map_cons, List.cons.injEq]
      exact ⟨trivial, ih n⟩

theorem sameCore_setERec (i : ℕ) (f : ERec → ERec) (m : Brep) :
    sameCore m (setERec i f m) := ⟨rfl, rfl, rfl, rfl, rfl⟩

theorem sameCore_setHRec (i : ℕ) (f : HRec → HRec) (m : Brep) :
    sameCore m (setHRec i f m) := ⟨rfl, rfl, rfl, rfl, rfl⟩

theorem sameCore_setFRec (i : ℕ) (f : FRec → FRec) (m : Brep) :
    sameCore m (setFRec i f m) :=
  ⟨rfl, rfl, rfl, List.length_set m.frecs i _, rfl⟩

theorem sameCore_setVRec_halfEdge (i : ℕ) (x : Option ℕ) (m : Brep) :
    sameCore m (setVRec i (fun r => { r with halfEdge := x }) m) :=
  ⟨rfl, rfl, rfl, rfl, map_index_set_halfEdge m.vrecs i x⟩

theorem sameCore_pushEdgeP (r : ERec) (m : Brep) :
    sameCore m (pushEdgeP r m).2 := ⟨rfl, rfl, rfl, rfl, rfl⟩

theorem sameCore_pushHalfEdgeP (r : HRec) (m : Brep) :
    sameCore m (pushHalfEdgeP r m).2 := ⟨rfl, rfl, rfl, rfl, rfl⟩

/-- `updateFaceWithoutVertex` never touches the vertex sequence, the
position array, the face sequence, the face store size or the stored
vertex indices, on the success path as much as on every failure path. -/
theorem updateFaceWithoutVertex_core (f v : ℕ) (m : Brep) (r : Except String (Option ℕ))
    (m' : Brep) (h : updateFaceWithoutVertex f v m = (r, m')) : sameCore m m' := by
  unfold updateFaceWithoutVertex at h
  split at h
  · injection h with h1 h2
    subst h2
    exact sameCore_refl m
  · split at h
    · injection h with h1 h2
      subst h2
      exact sameCore_refl m
    · split at h
      · injection h with h1 h2
        subst h2
        exact sameCore_refl m
      · dsimp only at h
        split at h
        · injection h with h1 h2
          subst h2
          exact sameCore_trans
            (sameCore_trans (sameCore_pushEdgeP _ m) (sameCore_pushHalfEdgeP _ _))
            (sameCore_setERec _ _ _)
        · split at h
          · injection h with h1 h2
            subst h2
            exact sameCore_trans
              (sameCore_trans
                (sameCore_trans (sameCore_pushEdgeP _ m) (sameCore_pushHalfEdgeP _ _))
                (sameCore_setERec _ _ _))
              (sameCore_trans
                (sameCore_trans (sameCore_setHRec _ _ _) (sameCore_setHRec _ _ _))
                (sameCore_setFRec _ _ _))
          · injection h with h1 h2
            subst h2
            exact sameCore_trans
              (sameCore_trans
                (sameCore_trans
                  (sameCore_trans (sameCore_pushEdgeP _ m) (sameCore_pushHalfEdgeP _ _))
                  (sameCore_setERec _ _ _))
                (sameCore_trans
                  (sameCore_trans (sameCore_setHRec _ _ _) (sameCore_setHRec _ _ _))
                  (sameCore_setFRec _ _ _)))
              (sameCore_setVRec_halfEdge _ _ _)

theorem sameCoreV_refl (m : Brep) : sameCoreV m m := ⟨rfl, rfl, rfl, rfl, rfl⟩

theorem sameCoreV_trans {a b c : Brep} (h1 : sameCoreV a b) (h2 : sameCoreV b c) :
    sameCoreV a c :=
  ⟨h2.1.trans h1.1, h2.2.1.trans h1.2.1, h2.2.2.1.trans h1.2.2.1,
   h2.2.2.2.1.trans h1.2.2.2.1, h2.2.2.2.2.trans h1.2.2.2.2⟩

theorem sameCoreV_to_sameCore {a b : Brep} (h : sameCoreV a b) : sameCore a b :=
  ⟨h.1, h.2.1, h.2.2.1, h.2.2.2.1, by rw [h.2.2.2.2]⟩

theorem sameCoreV_setFRec (i : ℕ) (f : FRec → FRec) (m : Brep) :
    sameCoreV m (setFRec i f m) :=
  ⟨rfl, rfl, rfl, List.length_set m.frecs i _, rfl⟩

/-- Every branch of one step of the new-face loop only allocates edges and
half-edges and relinks edge/half-edge records: vertices, positions, faces,
the face-store size and the whole vertex store are untouched. -/
theorem newFaceStep_coreV (nf : ℕ) (ordered : List ℕ) (prev : Option ℕ)
    (iv : ℕ × ℕ) (m : Brep) (r : Except String (Option ℕ)) (m' : Brep)
    (h : newFaceStep nf ordered prev iv m = (r, m')) : sameCoreV m m' := by
  unfold newFaceStep at h
  dsimp only at h
  split at h <;>
    (injection h with h1 h2; subst h2) <;>
    split <;> split <;> exact ⟨rfl, rfl, rfl, rfl, rfl⟩

/-- A relation preserved by every step of `foldME` is preserved by the
whole fold. -/
theorem foldME_pres {σ α β : Type} (P : σ → σ → Prop)
    (hrefl : ∀ s, P s s)
    (htrans : ∀ {a b c : σ}, P a b → P b c → P a c)
    (f : β → α → StE σ β)
    (hf : ∀ b a s r s', f b a s = (r, s') → P s s') :
    ∀ (l : List α) (b : β) (s : σ) (r : Except String β) (s' : σ),
      foldME l f b s = (r, s') → P s s' := by
  intro l
  induction l with
  | nil =>
    intro b s r s' h
    injection h with h1 h2
    subst h2
    exact hrefl s
  | cons a t ih =>
    intro b s r s' h
    unfold foldME at h
    rcases hfa : f b a s with ⟨ra, s1⟩
    rw [hfa] at h
    cases ra with
    | ok b' => exact htrans (hf b a s _ _ hfa) (ih b' s1 r s' h)
    | error e =>
      injection h with h1 h2
      subst h2
      exact hf b a s _ _ hfa

/-- The whole new-face loop leaves vertices, positions, the face sequence,
the face-store size and the vertex store untouched. -/
theorem newFaceLoop_coreV (nf : ℕ) (ordered : List ℕ) (m : Brep)
    (r : Except String Unit) (m' : Brep)
    (h : newFaceLoop nf ordered m = (r, m')) : sameCoreV m m' := by
  unfold newFaceLoop at h
  rcases hfold : foldME ordered.enum (newFaceStep nf ordered) none m with ⟨rf, m1⟩
  rw [hfold] at h
  have hc1 : sameCoreV m m1 :=
    foldME_pres sameCoreV sameCoreV_refl (fun hab hbc => sameCoreV_trans hab hbc)
      (newFaceStep nf ordered) (fun b a s rr s' hh => newFaceStep_coreV nf ordered b a s rr s' hh)
      ordered.enum none m rf m1 hfold
  cases rf with
  | error e =>
    injection h with h1 h2
    subst h2
    exact hc1
  | ok b' =>
    dsimp only at h
    split at h
    · split at h
      · injection h with h1 h2
        subst h2
        exact hc1
      · injection h with h1 h2
        subst h2
        exact sameCoreV_trans hc1
          (sameCoreV_trans ⟨rfl, rfl, rfl, rfl, rfl⟩ (sameCoreV_setFRec _ _ _))
    · injection h with h1 h2
      subst h2
      exact sameCoreV_trans hc1 (sameCoreV_setFRec _ _ _)

/-- Part A of the deletion operator, when it succeeds, preserves the core
of the mesh, and the face deletion set it hands over is the one the
read-only analysis computed on the input mesh. -/
theorem dvpPartA_spec (key : AngleKey) (v1 v2 : ℕ) (m0 : Brep) (d : DvpData)
    (m1 : Brep) (h : dvpPartA key v1 v2 m0 = (.ok d, m1)) :
    sameCore m0 m1 ∧
      ∃ a, dvpAnalyze m0 v1 v2 = .ok a ∧ d.facesToDelete = a.facesToDelete := by
  unfold dvpPartA at h
  split at h
  · injection h with h1 h2
    exact Except.noConfusion h1
  · rename_i a heqAn
    split at h
    · injection h with h1 h2
      exact Except.noConfusion h1
    · rename_i d1? mA heqTF
      have hcA : sameCore m0 mA := by
        cases htf : a.topFace? with
        | some tf =>
          rw [htf] at heqTF
          exact updateFaceWithoutVertex_core _ _ _ _ _ heqTF
        | none =>
          rw [htf] at heqTF
          injection heqTF with e1 e2
          subst e2
          exact sameCore_refl m0
      dsimp only at h
      split at h
      · injection h with h1 h2
        exact Except.noConfusion h1
      · rename_i d2? mB heqBF
        have hcB : sameCore m0 mB := by
          cases hbf : a.bottomFace? with
          | some bf =>
            rw [hbf] at heqBF
            exact sameCore_trans hcA (updateFaceWithoutVertex_core _ _ _ _ _ heqBF)
          | none =>
            rw [hbf] at heqBF
            injection heqBF with e1 e2
            subst e2
            exact hcA
        split at h
        · injection h with h1 h2
          exact Except.noConfusion h1
        · split at h
          · injection h with h1 h2
            exact Except.noConfusion h1
          · split at h
            · injection h with h1 h2
              exact Except.noConfusion h1
            · injection h with h1 h2
              subst h2
              injection h1 with h1'
              exact ⟨hcB, a, heqAn, by rw [← h1']⟩

theorem getD_cases {α : Type} (l : List α) (i : ℕ) (d : α) :
    l.getD i d = d ∨ l.getD i d ∈ l := by
  induction l generalizing i with
  | nil => exact .inl rfl
  | cons a t ih =>
    cases i with
    | zero =>
      rw [List.getD_cons_zero]
      exact .inr (List.mem_cons_self a t)
    | succ n =>
      rw [List.getD_cons_succ]
      rcases ih n with hd | hm
      · exact .inl hd
      · exact .inr (List.mem_cons_of_mem a hm)

/-- In a well-formed mesh, every face reference stored on a half-edge
record (read with the arena default) points into the face store. -/
theorem hrecD_face_lt {m : Brep} (hwf : WF m) {he g : ℕ}
    (h : (hrecD m he).face = some (some g)) : g < m.frecs.length := by
  rcases getD_cases m.hrecs he ⟨none, none, none, none, none⟩ with hd | hm
  · unfold hrecD at h
    rw [hd] at h
    exact Option.noConfusion h
  · exact hwf.hfaceLt _ hm g h

theorem mem_dedupFirst {α : Type} [DecidableEq α] {x : α} :
    ∀ {l : List α}, x ∈ dedupFirst l → x ∈ l := by
  intro l
  induction l with
  | nil => intro h; cases h
  | cons a t ih =>
    intro h
    simp only [dedupFirst] at h
    rcases List.mem_cons.mp h with hxa | hxf
    · exact hxa ▸ List.mem_cons_self a t
    · exact List.mem_cons_of_mem a (ih (List.mem_filter.mp hxf).1)

/-- Every face object delivered by the `VertexFaces` walk is a stored face
reference of some half-edge, hence in range in a well-formed mesh. -/
theorem vertexFacesQ_bound {m : Brep} (hwf : WF m) (v : ℕ)
    {fs : List (Option (Option ℕ))} (hq : vertexFacesQ m v = .ok fs)
    {x : Option (Option ℕ)} (hx : x ∈ fs) {g : ℕ} (hg : x = some (some g)) :
    g < m.frecs.length := by
  unfold vertexFacesQ at hq
  cases hhe : vertexHalfEdgesQ m v with
  | error e =>
    rw [hhe] at hq
    exact Except.noConfusion hq
  | ok hes =>
    rw [hhe] at hq
    simp only [Except.map] at hq
    injection hq with hq'
    subst hq'
    rcases List.mem_map.mp hx with ⟨he, hhe2, hxe⟩
    exact hrecD_face_lt hwf (hxe.trans hg)

/-- The face deletion set assembled by the analysis contains only faces of
the input mesh's face store: the face allocated later cannot be in it. -/
theorem dvpAnalyze_faces_bound {m : Brep} (hwf : WF m) (v1 v2 : ℕ)
    {a : DvpAnalysis} (hAn : dvpAnalyze m v1 v2 = .ok a) {g : ℕ}
    (hg : some (some g) ∈ a.facesToDelete) : g < m.frecs.length := by
  unfold dvpAnalyze at hAn
  split at hAn
  · exact Except.noConfusion hAn
  rename_i v1raw h1
  split at hAn
  · exact Except.noConfusion hAn
  rename_i v2raw h2
  split at hAn
  · exact Except.noConfusion hAn
  split at hAn
  · exact Except.noConfusion hAn
  split at hAn
  · exact Except.noConfusion hAn
  split at hAn
  · exact Except.noConfusion hAn
  dsimp only at hAn
  split at hAn
  · exact Except.noConfusion hAn
  split at hAn
  · exact Except.noConfusion hAn
  split at hAn
  · exact Except.noConfusion hAn
  split at hAn
  · exact Except.noConfusion hAn
  injection hAn with hA'
  subst hA'
  have hmem : some (some g) ∈ dedupFirst (dedupFirst v1raw ++ dedupFirst v2raw) :=
    (List.mem_filter.mp hg).1
  rcases List.mem_append.mp (mem_dedupFirst hmem) with hc | hc
  · exact vertexFacesQ_bound hwf v1 h1 (mem_dedupFirst hc) rfl
  · exact vertexFacesQ_bound hwf v2 h2 (mem_dedupFirst hc) rfl

theorem getD_index_of_map_eq {l l' : List VRec}
    (h : l'.map VRec.index = l.map VRec.index) (i : ℕ) :
    (l'.getD i ⟨0, none⟩).index = (l.getD i ⟨0, none⟩).index := by
  induction l generalizing l' i with
  | nil =>
    have hl' : l' = [] := List.map_eq_nil.mp (h.trans (List.map_nil))
    subst hl'
    rfl
  | cons b t ih =>
    cases l' with
    | nil => exact List.noConfusion h
    | cons b' t' =>
      rw [List.map_cons, List.map_cons] at h
      injection h with h1 h2
      cases i with
      | zero =>
        rw [List.getD_cons_zero, List.getD_cons_zero]
        exact h1
      | succ n =>
        rw [List.getD_cons_succ, List.getD_cons_succ]
        exact ih h2 n

theorem vrecD_index_eq {m m' : Brep}
    (h : m'.vrecs.map VRec.index = m.vrecs.map VRec.index) (v : ℕ) :
    (vrecD m' v).index = (vrecD m v).index :=
  getD_index_of_map_eq h v

theorem two_le_length {α : Type} {l : List α} {a b : α}
    (ha : a ∈ l) (hb : b ∈ l) (hab : a ≠ b) : 2 ≤ l.length := by
  cases l with
  | nil => cases ha
  | cons c t =>
    rcases List.mem_cons.mp ha with hac | hat
    · rcases List.mem_cons.mp hb with hbc | hbt
      · exact absurd (hac.trans hbc.symm) hab
      · have := List.length_pos.mpr (List.ne_nil_of_mem hbt)
        simp only [List.length_cons]
        omega
    · have := List.length_pos.mpr (List.ne_nil_of_mem hat)
      simp only [List.length_cons]
      omega

/-- Removing the single occurrence of a member from a duplicate-free list
shortens it by exactly one. -/
theorem length_filter_ne (l : List ℕ) (a : ℕ) (hnd : l.Nodup) (ha : a ∈ l) :
    (l.filter (fun x => ¬ x = a)).length = l.length - 1 := by
  induction l with
  | nil => cases ha
  | cons b t ih =>
    rw [List.nodup_cons] at hnd
    rw [List.filter_cons]
    by_cases hba : b = a
    · subst hba
      have hcond : ¬ ((decide (¬ b = b)) = true) := by simp
      rw [if_neg hcond]
      have hf : t.filter (fun x => ¬ x = b) = t :=
        List.filter_eq_self.mpr (fun x hx => decide_eq_true (fun hxb => hnd.1 (hxb ▸ hx)))
      rw [hf, List.length_cons]
      omega
    · have hat : a ∈ t := by
        rcases List.mem_cons.mp ha with hc | hc
        · exact absurd hc.symm hba
        · exact hc
      have hcond : (decide (¬ b = a)) = true := decide_eq_true hba
      rw [if_pos hcond, List.length_cons, ih hnd.2 hat, List.length_cons]
      have hpos : 0 < t.length := List.length_pos.mpr (List.ne_nil_of_mem hat)
      omega

/-- Removing two distinct members from a duplicate-free list shortens it
by exactly two (the vertex-purge count of the deletion operator). -/
theorem length_filter_two (l : List ℕ) (v1 v2 : ℕ) (hnd : l.Nodup)
    (h1 : v1 ∈ l) (h2 : v2 ∈ l) (hne : v1 ≠ v2) :
    (l.filter (fun v => ¬ (v = v1 ∨ v = v2))).length = l.length - 2 := by
  induction l with
  | nil => cases h1
  | cons b t ih =>
    rw [List.nodup_cons] at hnd
    rw [List.filter_cons]
    by_cases hb1 : b = v1
    · subst hb1
      have hcond : ¬ ((decide (¬ (b = b ∨ b = v2))) = true) := by simp
      rw [if_neg hcond]
      have hcongr : t.filter (fun v => ¬ (v = b ∨ v = v2)) =
          t.filter (fun v => ¬ v = v2) := by
        apply List.filter_congr
        intro x hx
        have hxb : ¬ x = b := fun hxb => hnd.1 (hxb ▸ hx)
        simp [hxb]
      have hv2t : v2 ∈ t := by
        rcases List.mem_cons.mp h2 with hc | hc
        · exact absurd hc.symm hne
        · exact hc
      rw [hcongr, length_filter_ne t v2 hnd.2 hv2t, List.length_cons]
      omega
    · by_cases hb2 : b = v2
      · subst hb2
        have hcond : ¬ ((decide (¬ (b = v1 ∨ b = b))) = true) := by simp
        rw [if_neg hcond]
        have hcongr : t.filter (fun v => ¬ (v = v1 ∨ v = b)) =
            t.filter (fun v => ¬ v = v1) := by
          apply List.filter_congr
          intro x hx
          have hxb : ¬ x = b := fun hxb => hnd.1 (hxb ▸ hx)
          simp [hxb]
        have hv1t : v1 ∈ t := by
          rcases List.mem_cons.mp h1 with hc | hc
          · exact absurd hc.symm hb1
          · exact hc
        rw [hcongr, length_filter_ne t v1 hnd.2 hv1t, List.length_cons]
        omega
      · have hcond : (decide (¬ (b = v1 ∨ b = v2))) = true :=
          decide_eq_true (fun hor => hor.elim hb1 hb2)
        rw [if_pos hcond, List.length_cons]
        have h1t : v1 ∈ t := by
          rcases List.mem_cons.mp h1 with hc | hc
          · exact absurd hc.symm hb1
          · exact hc
        have h2t : v2 ∈ t := by
          rcases List.mem_cons.mp h2 with hc | hc
          · exact absurd hc.symm hb2
          · exact hc
        rw [ih hnd.2 h1t h2t, List.length_cons]
        have := two_le_length h1t h2t hne
        omega

/-- Dropping the rows at two distinct in-range indices removes exactly two
rows (the position-purge count of the deletion operator). -/
theorem removeAtIndices_length_two {α : Type} (l : List α) (i1 i2 : ℕ)
    (hne : i1 ≠ i2) (h1 : i1 < l.length) (h2 : i2 < l.length) :
    (removeAtIndices l [i1, i2]).length = l.length - 2 := by
  unfold removeAtIndices
  rw [List.length_map]
  have key : (l.enum.filter (fun p => ¬ p.1 ∈ [i1, i2])).length =
      ((List.range l.length).filter (fun i => ¬ i ∈ [i1, i2])).length := by
    conv_rhs => rw [← List.enum_map_fst l, List.filter_map, List.length_map]
    rfl
  rw [key]
  have hcongr : (List.range l.length).filter (fun i => ¬ i ∈ [i1, i2]) =
      (List.range l.length).filter (fun i => ¬ (i = i1 ∨ i = i2)) := by
    apply List.filter_congr
    intro x hx
    simp [List.mem_cons, List.mem_singleton]
  rw [hcongr,
    length_filter_two (List.range l.length) i1 i2 (List.nodup_range _)
      (List.mem_range.mpr h1) (List.mem_range.mpr h2) hne,
    List.length_range]

theorem foldl_pres_proj {α γ : Type} (proj : Brep → γ) (g : Brep → α → Brep)
    (hg : ∀ s x, proj (g s x) = proj s) (l : List α) (acc : Brep) :
    proj (l.foldl g acc) = proj acc := by
  induction l generalizing acc with
  | nil => rfl
  | cons x t ih => rw [List.foldl_cons, ih, hg]

theorem foldl_setV_vertices (l : List (ℕ × ℕ)) (acc : Brep) :
    (l.foldl (fun a p => setVRec p.2 (fun r => { r with index := p.1 }) a) acc).vertices
      = acc.vertices :=
  by
    apply foldl_pres_proj
    intro s x
    rfl

theorem foldl_setV_positions (l : List (ℕ × ℕ)) (acc : Brep) :
    (l.foldl (fun a p => setVRec p.2 (fun r => { r with index := p.1 }) a) acc).positions
      = acc.positions :=
  by
    apply foldl_pres_proj
    intro s x
    rfl

theorem foldl_setV_faces (l : List (ℕ × ℕ)) (acc : Brep) :
    (l.foldl (fun a p => setVRec p.2 (fun r => { r with index := p.1 }) a) acc).faces
      = acc.faces :=
  by
    apply foldl_pres_proj
    intro s x
    rfl

theorem foldl_setE_vertices (l : List (ℕ × ℕ)) (acc : Brep) :
    (l.foldl (fun a p => setERec p.2 (fun r => { r with index := p.1 }) a) acc).vertices
      = acc.vertices :=
  by
    apply foldl_pres_proj
    intro s x
    rfl

theorem foldl_setE_positions (l : List (ℕ × ℕ)) (acc : Brep) :
    (l.foldl (fun a p => setERec p.2 (fun r => { r with index := p.1 }) a) acc).positions
      = acc.positions :=
  by
    apply foldl_pres_proj
    intro s x
    rfl

theorem foldl_setE_faces (l : List (ℕ × ℕ)) (acc : Brep) :
    (l.foldl (fun a p => setERec p.2 (fun r => { r with index := p.1 }) a) acc).faces
      = acc.faces :=
  by
    apply foldl_pres_proj
    intro s x
    rfl

theorem foldl_setF_vertices (l : List (ℕ × ℕ)) (acc : Brep) :
    (l.foldl (fun a p => setFRec p.2 (fun r => { r with index := p.1 }) a) acc).vertices
      = acc.vertices :=
  by
    apply foldl_pres_proj
    intro s x
    rfl

theorem foldl_setF_positions (l : List (ℕ × ℕ)) (acc : Brep) :
    (l.foldl (fun a p => setFRec p.2 (fun r => { r with index := p.1 }) a) acc).positions
      = acc.positions :=
  by
    apply foldl_pres_proj
    intro s x
    rfl

theorem foldl_setF_faces (l : List (ℕ × ℕ)) (acc : Brep) :
    (l.foldl (fun a p => setFRec p.2 (fun r => { r with index := p.1 }) a) acc).faces
      = acc.faces :=
  by
    apply foldl_pres_proj
    intro s x
    rfl

/-- After the final purge, the vertex sequence is the input one with the
two selected vertices filtered out. -/
theorem dvpFinalize_vertices (v1 v2 : ℕ) (d : DvpData) (m : Brep) :
    (dvpFinalize v1 v2 d m).2.vertices =
      m.vertices.filter (fun v => ¬ (v = v1 ∨ v = v2)) := by
  unfold dvpFinalize
  dsimp only
  rw [foldl_setF_vertices, foldl_setE_vertices, foldl_setV_vertices]

/-- After the final purge, the position array is the input one with the
rows of the two selected vertices dropped. -/
theorem dvpFinalize_positions (v1 v2 : ℕ) (d : DvpData) (m : Brep) :
    (dvpFinalize v1 v2 d m).2.positions =
      removeAtIndices m.positions [(vrecD m v1).index, (vrecD m v2).index] := by
  unfold dvpFinalize
  dsimp only
  rw [foldl_setF_positions, foldl_setE_positions, foldl_setV_positions]
  rfl

/-- After the final purge, the face sequence is the input one with the
planned face deletions filtered out. -/
theorem dvpFinalize_faces (v1 v2 : ℕ) (d : DvpData) (m : Brep) :
    (dvpFinalize v1 v2 d m).2.faces =
      m.faces.filter (fun f => ¬ (some (some f)) ∈ d.facesToDelete) := by
  unfold dvpFinalize
  dsimp only
  rw [foldl_setF_faces, foldl_setE_faces, foldl_setV_faces]

/-- A decidable sufficient condition for the `hfaceLt` field of `WF`. -/
theorem hface_of_toList (m : Brep)
    (h : ∀ hr ∈ m.hrecs, ∀ g ∈ (hr.face.getD none).toList, g < m.frecs.length) :
    ∀ hr ∈ m.hrecs, ∀ g, hr.face = some (some g) → g < m.frecs.length := by
  intro hr hm g hg
  apply h hr hm g
  rw [hg]
  exact List.mem_singleton.mpr rfl

/-- C4: on a well-formed mesh, a successful run of
`deleteVertexPairAndUpdateBREP` on two distinct vertices of the mesh
leaves a vertex sequence and a position array with exactly `N - 2`
entries each (`N` the input vertex count), and the face sequence is a
subsequence of the old faces with exactly one new face — the capping
face — appended. -/
theorem delete_pair_counts (key : AngleKey) (m m' : Brep) (v1 v2 : ℕ)
    (hwf : WF m) (h1 : v1 ∈ m.vertices) (h2 : v2 ∈ m.vertices) (hne : v1 ≠ v2)
    (hrun : deleteVertexPairAndUpdateBREP key v1 v2 m = (.ok (), m')) :
    m'.vertices.length = m.vertices.length - 2 ∧
    m'.positions.length = m.vertices.length - 2 ∧
    ∃ fnew, fnew ∉ m.faces ∧
      ∃ kept, kept.Sublist m.faces ∧ m'.faces = kept ++ [fnew] := by
  unfold deleteVertexPairAndUpdateBREP at hrun
  split at hrun
  · injection hrun with e1 e2
    exact Except.noConfusion e1
  rename_i d m1 hpA
  dsimp only at hrun
  split at hrun
  · injection hrun with e1 e2
    exact Except.noConfusion e1
  rename_i u m3 hloop
  obtain ⟨hm1core, a, hAn, hfd⟩ := dvpPartA_spec key v1 v2 m d m1 hpA
  obtain ⟨hv1c, hp1c, hfc1, hfr1, hvrm1⟩ := hm1core
  obtain ⟨hv3, hp3, hf3, hfr3, hvr3⟩ := newFaceLoop_coreV _ _ _ _ _ hloop
  have hv : m3.vertices = m.vertices := by rw [hv3]; exact hv1c
  have hp : m3.positions = m.positions := by rw [hp3]; exact hp1c
  have hfaces : m3.faces = m.faces ++ [m.frecs.length] := by
    rw [hf3]
    show m1.faces ++ [m1.frecs.length] = m.faces ++ [m.frecs.length]
    rw [hfc1, hfr1]
  have hvrecs : m3.vrecs.map VRec.index = m.vrecs.map VRec.index := by
    rw [hvr3]
    exact hvrm1
  have hm' : m' = (dvpFinalize v1 v2 d m3).2 := by
    have hsnd := congrArg Prod.snd hrun
    exact hsnd.symm
  have hc1 : m'.vertices.length = m.vertices.length - 2 := by
    rw [hm', dvpFinalize_vertices, hv]
    exact length_filter_two m.vertices v1 v2 hwf.nodupV h1 h2 hne
  have hidx1 : (vrecD m3 v1).index = (vrecD m v1).index := vrecD_index_eq hvrecs v1
  have hidx2 : (vrecD m3 v2).index = (vrecD m v2).index := vrecD_index_eq hvrecs v2
  have hine : (vrecD m v1).index ≠ (vrecD m v2).index :=
    fun he => hne (hwf.vIdxInj v1 h1 v2 h2 he)
  have hc2 : m'.positions.length = m.vertices.length - 2 := by
    rw [hm', dvpFinalize_positions, hidx1, hidx2, hp,
      removeAtIndices_length_two m.positions _ _ hine
        (hwf.vIdxLt v1 h1) (hwf.vIdxLt v2 h2),
      hwf.posLen]
  have hNnotdel : ¬ some (some m.frecs.length) ∈ d.facesToDelete := by
    intro hmem
    rw [hfd] at hmem
    exact absurd (dvpAnalyze_faces_bound hwf v1 v2 hAn hmem) (lt_irrefl _)
  refine ⟨hc1, hc2, m.frecs.length, ?_,
    m.faces.filter (fun f => ¬ (some (some f)) ∈ d.facesToDelete),
    List.filter_sublist _, ?_⟩
  · intro hmemF
    exact absurd (hwf.facesLt _ hmemF) (lt_irrefl _)
  · rw [hm', dvpFinalize_faces, hfaces, List.filter_append]
    have hcond : (decide (¬ (some (some (m.frecs.length)) ∈ d.facesToDelete))) = true :=
      decide_eq_true hNnotdel
    rw [List.filter_cons, if_pos hcond, List.filter_nil]

set_option maxHeartbeats 1000000 in
theorem delete_pair_counts_witness :
    (deleteVertexPairAndUpdateBREP (fun _ _ => 0) 1 0 dblTri).2.vertices.length =
        dblTri.vertices.length - 2 ∧
    (deleteVertexPairAndUpdateBREP (fun _ _ => 0) 1 0 dblTri).2.positions.length =
        dblTri.vertices.length - 2 ∧
    ∃ fnew, fnew ∉ dblTri.faces ∧
      ∃ kept, kept.Sublist dblTri.faces ∧
        (deleteVertexPairAndUpdateBREP (fun _ _ => 0) 1 0 dblTri).2.faces =
          kept ++ [fnew] := by
  have hok : (deleteVertexPairAndUpdateBREP (fun _ _ => 0) 1 0 dblTri).1 = .ok () := by
    decide
  have hrun : deleteVertexPairAndUpdateBREP (fun _ _ => 0) 1 0 dblTri =
      (.ok (), (deleteVertexPairAndUpdateBREP (fun _ _ => 0) 1 0 dblTri).2) := by
    rw [← hok]
  exact delete_pair_counts (fun _ _ => 0) dblTri
    ((deleteVertexPairAndUpdateBREP (fun _ _ => 0) 1 0 dblTri).2) 1 0
    ⟨by decide, by decide, by decide, by decide, by decide,
     hface_of_toList dblTri (by decide)⟩
    (by decide) (by decide) (by decide) hrun

/-- Running `tessellate` on a present mesh does not depend on the incoming
accumulator state: the body starts with `this.flush()`. -/
theorem tessellate_state_blind (ec : Earcut) (cn : ComputeNormals) (m : Brep)
    (s₁ s₂ : TessState) :
    tessellate ec cn (some m) s₁ = tessellate ec cn (some m) s₂ := rfl

/-- C5: calling `Tessellator.tessellate` twice on the same unmutated mesh
yields bit-identical position, index and normal buffers (the whole result,
in fact), because the instance accumulators (`verData`, `indices`,
`uvData`, `faceFacetMapping`, `nBabylonVertices`) are fully reset by
`flush()` at the start of every call; the second call, starting from
whatever state the first left behind, returns exactly the first call's
result. -/
theorem tessellate_idempotent (ec : Earcut) (cn : ComputeNormals) (m : Brep)
    (s : TessState) :
    tessellate ec cn (some m) ((tessellate ec cn (some m) s).2) =
      tessellate ec cn (some m) s :=
  tessellate_state_blind ec cn m _ s

/-- C10: a falsy `brep` argument makes `tessellate` return the record with
null geometry and null face mapping, without throwing and without touching
the instance accumulator state. -/
theorem tessellate_null_brep (ec : Earcut) (cn : ComputeNormals) (s : TessState) :
    tessellate ec cn none s =
      (.ok { geometry := none, faceFacetMapping := none }, s) := rfl

/-- C1 (the code against the claim): tessellating a single triangular face
whose earcut call returns the triangle `[0, 1, 2]` emits that triangle
into the index buffer, yet `faceFacetMapping` maps face 0 to the empty
sequence: `_tessellateFace` initialises `faceFacetMapping[index] = []` and
no code ever records the contributing triangles (the `facetID` counter is
never advanced or used). -/
theorem faceFacetMapping_stays_empty :
    ((tessellate (fun _ => some [0, 1, 2]) (fun _ _ => []) (some triMesh)) flush).1 =
      .ok { geometry := some { positions := [0, 0, 0, 1, 0, 0, 0, 0, 1],
                               uvs := [], indices := [0, 1, 2], normals := [] },
            faceFacetMapping := some [(0, [])] } := by decide

/-- C2 counterexample: when the 2D earcut call returns an empty triangle
list on a triangular face, the face contributes no triangles at all — the
index buffer stays empty and no fan triangulation `(0, 1, 2)` is appended.
The guard `!triangles || triangles.length === 0` only warns and returns;
the fan fallback lives in the `catch` block, which an empty return value
never reaches. -/
theorem empty_earcut_no_fan :
    ((tessellate (fun _ => some []) (fun _ _ => []) (some triMesh)) flush).1 =
      .ok { geometry := some { positions := [0, 0, 0, 1, 0, 0, 0, 0, 1],
                               uvs := [], indices := [], normals := [] },
            faceFacetMapping := some [(0, [])] } := by decide

/-- The projection loop throws exactly when some vertex row fails the
validity check `!Array.isArray(vertex) || vertex.length < 3`. -/
theorem buildEarcutPath_eq_none (pi : ℕ × ℕ) (fp : List (List ℚ)) :
    buildEarcutPath pi fp = none ↔ ∃ row ∈ fp, row.length < 3 := by
  induction fp with
  | nil => simp [buildEarcutPath]
  | cons row rest ih =>
    by_cases h : row.length < 3
    · simp [buildEarcutPath, h]
    · cases hb : buildEarcutPath pi rest with
      | none =>
        have hex : ∃ r ∈ rest, r.length < 3 := ih.mp hb
        simp only [buildEarcutPath, if_neg h, hb]
        constructor
        · intro _
          rcases hex with ⟨r, hr, hlen⟩
          exact ⟨r, List.mem_cons_of_mem _ hr, hlen⟩
        · intro _; trivial
      | some path =>
        simp only [buildEarcutPath, if_neg h, hb]
        constructor
        · intro hc; exact absurd hc (by simp)
        · rintro ⟨r, hr, hlen⟩
          rcases List.mem_cons.mp hr with rfl | hr'
          · exact absurd hlen h
          · have : buildEarcutPath pi rest = none := ih.mpr ⟨r, hr', hlen⟩
            rw [this] at hb
            exact absurd hb (by simp)

/-- C2 amended: the fan triangulation `(0, i, i+1)` anchored at the face's
first vertex is appended exactly when the projection/triangulation throws
(an invalid vertex row, or the earcut call itself throwing); an empty
earcut result only emits a diagnostic and leaves the face without
triangles. -/
theorem fan_exactly_on_throw (ec : Earcut) (fp : List (List ℚ)) (s : TessState) :
    (((∃ row ∈ fp, row.length < 3) ∨
        (∀ path, buildEarcutPath (getProjectionIndices fp) fp = some path →
          ec path = none)) →
      populateIndices ec fp s =
        s.indices ++ fanIndices s.nBabylonVertices fp.length) ∧
    (∀ path, buildEarcutPath (getProjectionIndices fp) fp = some path →
      ec path = some [] → populateIndices ec fp s = s.indices) := by
  constructor
  · intro h
    simp only [populateIndices]
    cases hb : buildEarcutPath (getProjectionIndices fp) fp with
    | none => rfl
    | some path =>
      rcases h with hrow | hec
      · exact absurd hb (by simp [(buildEarcutPath_eq_none _ fp).mpr hrow])
      · simp [hec path hb]
  · intro path hb hec
    simp only [populateIndices]
    rw [hb]
    simp [hec]

/-- C2 amended witness: a face with an invalid second vertex row receives
the fan `(0, 1, 2)`; a face whose earcut result is empty keeps the index
buffer unchanged. -/
theorem fan_exactly_on_throw_witness :
    populateIndices (fun _ => some [9]) [[0, 0, 0], [1], [0, 0, 1]] flush = [0, 1, 2] ∧
    populateIndices (fun _ => some []) [[0, 0, 0], [1, 0, 0], [0, 0, 1]] flush = [] := by
  constructor
  · exact ((fan_exactly_on_throw (fun _ => some [9])
      [[0, 0, 0], [1], [0, 0, 1]] flush).1
        (Or.inl ⟨[1], by decide, by decide⟩)).trans (by decide)
  · exact ((fan_exactly_on_throw (fun _ => some [])
      [[0, 0, 0], [1, 0, 0], [0, 0, 1]] flush).2
        [0, 0, 1, 0, 0, 1] (by decide) rfl).trans rfl

/-- C3 (the code against the claim): on the near-tie doubled triangle the
shared face is both top and bottom face; the top-face update splices
vertex 0 out, creating a half-edge with no flip partner and redirecting
vertex 1's half-edge reference to it, so the bottom-face update's
half-edge lookup (`VertexHalfEdges(vertex2)`) cannot complete — the
operation aborts with an error, but the mesh has already been mutated: an
edge has been added (and the face loop relinked), so the prior mesh is
not left untouched. -/
theorem delete_pair_mutates_on_lookup_failure :
    ((deleteVertexPairAndUpdateBREP (fun _ _ => 0) 0 1) c3Mesh).1 =
        .error "getNextHalfEdge of undefined" ∧
    ((deleteVertexPairAndUpdateBREP (fun _ _ => 0) 0 1) c3Mesh).2.edges.length =
        c3Mesh.edges.length + 1 ∧
    ((deleteVertexPairAndUpdateBREP (fun _ _ => 0) 0 1) c3Mesh).2 ≠ c3Mesh := by
  refine ⟨by decide, by decide, by decide⟩

/-- C3 amended: when the half-edge to remove is simply not found (the
`find` returns undefined), `updateFaceWithoutVertex` reports the failure
and returns null without itself mutating the mesh — but its caller
continues rather than aborting. -/
theorem updateFace_not_found_no_mutation (f v : ℕ) (m : Brep) (hes : List ℕ)
    (hok : vertexHalfEdgesQ m v = .ok hes)
    (hnone : hes.find? (fun he => faceEqObj (hrecD m he).face (some f)) = none) :
    updateFaceWithoutVertex f v m = (.ok none, m) := by
  simp only [updateFaceWithoutVertex, hok, hnone]

/-- C3 amended witness: vertex 4 of the cube has no half-edge on the
bottom face, so the lookup fails and the mesh is returned untouched. -/
theorem updateFace_not_found_no_mutation_witness :
    updateFaceWithoutVertex 0 4 cubeMesh = (.ok none, cubeMesh) :=
  updateFace_not_found_no_mutation 0 4 cubeMesh [4, 11, 22] (by decide) (by decide)

/-- C7: requesting deletion of a vertex with no neighbor at strictly lower
Y fails cleanly: `handleVertexSelection` returns before any mutation, so
the vertex, edge, half-edge and face counts and the position array are
unchanged. -/
theorem handle_no_below_unchanged (key : AngleKey) (m : Brep) (v : ℕ)
    (h : findVertexBelow m v = .ok none) :
    (handleVertexSelectionBrep key v m).2.vertices.length = m.vertices.length ∧
    (handleVertexSelectionBrep key v m).2.edges.length = m.edges.length ∧
    (handleVertexSelectionBrep key v m).2.halfEdges.length = m.halfEdges.length ∧
    (handleVertexSelectionBrep key v m).2.faces.length = m.faces.length ∧
    (handleVertexSelectionBrep key v m).2.positions = m.positions := by
  have hrun : handleVertexSelectionBrep key v m = (.ok (), m) := by
    simp only [handleVertexSelectionBrep, h]
  rw [hrun]
  exact ⟨rfl, rfl, rfl, rfl, rfl⟩

/-- C7 witness: the globally lowest vertex of the doubled triangle. -/
theorem handle_no_below_unchanged_witness :
    (handleVertexSelectionBrep (fun _ _ => 0) 0 dblTri).2.vertices.length =
        dblTri.vertices.length ∧
    (handleVertexSelectionBrep (fun _ _ => 0) 0 dblTri).2.edges.length =
        dblTri.edges.length ∧
    (handleVertexSelectionBrep (fun _ _ => 0) 0 dblTri).2.halfEdges.length =
        dblTri.halfEdges.length ∧
    (handleVertexSelectionBrep (fun _ _ => 0) 0 dblTri).2.faces.length =
        dblTri.faces.length ∧
    (handleVertexSelectionBrep (fun _ _ => 0) 0 dblTri).2.positions =
        dblTri.positions :=
  handle_no_below_unchanged (fun _ _ => 0) dblTri 0 (by decide)

/-- Membership in an append-style fold. -/
theorem mem_foldl_append {α β : Type} (g : β → List α) (l : List β)
    (init : List α) (x : α) :
    (x ∈ l.foldl (fun acc b => acc ++ g b) init) ↔
      x ∈ init ∨ ∃ b ∈ l, x ∈ g b := by
  induction l generalizing init with
  | nil => simp
  | cons a t ih =>
    simp only [List.foldl_cons, ih, List.mem_append, List.mem_cons]
    constructor
    · rintro (⟨hi | hg⟩ | ⟨b, hb, hx⟩)
      · exact Or.inl hi
      · exact Or.inr ⟨a, Or.inl rfl, hg⟩
      · exact Or.inr ⟨b, Or.inr hb, hx⟩
    · rintro (hi | ⟨b, (rfl | hb), hx⟩)
      · exact Or.inl (Or.inl hi)
      · exact Or.inl (Or.inr hx)
      · exact Or.inr ⟨b, hb, hx⟩

/-- Every fan index is below the face's base plus its vertex count. -/
theorem fanIndices_lt (nB n x : ℕ) (hx : x ∈ fanIndices nB n) : x < nB + n := by
  unfold fanIndices at hx
  rcases (mem_foldl_append
      (fun i => [nB, nB + (i + 1), nB + (i + 2)]) (List.range (n - 2)) [] x).mp hx with
    h | ⟨i, hi, hxi⟩
  · exact absurd h (List.not_mem_nil x)
  · have hilt : i < n - 2 := List.mem_range.mp hi
    simp only [List.mem_cons, List.not_mem_nil, or_false] at hxi
    rcases hxi with rfl | rfl | rfl
    · omega
    · omega
    · omega

/-- Every index admitted by the guarded append is either a pre-existing
index or strictly below `total / 3`. -/
theorem guardedAppend_mem (nB total : ℕ) (ind ts : List ℕ) (x : ℕ)
    (hx : x ∈ guardedAppend nB total ind ts) :
    x ∈ ind ∨ x < total / 3 := by
  unfold guardedAppend at hx
  rcases (mem_foldl_append
      (fun point => if point + nB ≥ total / 3 then [] else [point + nB])
      ts ind x).mp hx with h | ⟨p, _, hxp⟩
  · exact Or.inl h
  · by_cases hc : p + nB ≥ total / 3
    · rw [if_pos hc] at hxp
      exact absurd hxp (List.not_mem_nil x)
    · rw [if_neg hc] at hxp
      simp only [List.mem_cons, List.not_mem_nil, or_false] at hxp
      subst hxp
      exact Or.inr (by omega)

/-- A successful `_populatePositions` run appends exactly the joined rows,
and every row reference was defined. -/
theorem populatePositions_ok (fp : List (Option (List ℚ))) (acc res resb : List ℚ)
    (h : populatePositions fp acc = (.ok res, resb)) :
    res = acc ++ (fp.map (fun r => r.getD [])).join ∧ ∀ x ∈ fp, x ≠ none := by
  induction fp generalizing acc with
  | nil =>
    simp only [populatePositions] at h
    cases h
    simp
  | cons hd rest ih =>
    cases hd with
    | none =>
      exact absurd h (by
        simp only [populatePositions]
        exact fun hc => by cases hc)
    | some row =>
      simp only [populatePositions] at h
      rcases ih (acc ++ row) h with ⟨hres, hall⟩
      constructor
      · rw [hres]
        simp
      · intro x hx
        rcases List.mem_cons.mp hx with rfl | hx'
        · exact fun hc => by cases hc
        · exact hall x hx'

/-- The length of a join of uniform rows. -/
theorem join_length_three (rows : List (List ℚ))
    (h : ∀ r ∈ rows, r.length = 3) : rows.join.length = 3 * rows.length := by
  induction rows with
  | nil => simp
  | cons r rest ih =>
    simp only [List.join_cons, List.length_append, List.length_cons]
    rw [h r (List.mem_cons_self r rest), ih (fun x hx => h x (List.mem_cons_of_mem r hx))]
    ring

/-- The invariant carried across the tessellated faces: every emitted
index addresses a vertex of the emitted position buffer, and the vertex
base count times three is exactly the buffer length. -/
def TessInv (s : TessState) : Prop :=
  (∀ i ∈ s.indices, 3 * i < s.verData.length) ∧
    3 * s.nBabylonVertices = s.verData.length

/-- `_populateIndices` returns the fan extension, the unchanged index
list, or a guarded append of some earcut output. -/
theorem populateIndices_cases (ec : Earcut) (fp : List (List ℚ)) (s : TessState) :
    populateIndices ec fp s =
        s.indices ++ fanIndices s.nBabylonVertices fp.length ∨
    populateIndices ec fp s = s.indices ∨
    ∃ ts, populateIndices ec fp s =
        guardedAppend s.nBabylonVertices s.verData.length s.indices ts := by
  cases hb : buildEarcutPath (getProjectionIndices fp) fp with
  | none =>
    left
    simp only [populateIndices]
    rw [hb]
  | some path =>
    have hred : populateIndices ec fp s = (match ec path with
        | none => s.indices ++ fanIndices s.nBabylonVertices fp.length
        | some [] => s.indices
        | some triangles =>
          guardedAppend s.nBabylonVertices s.verData.length s.indices triangles) := by
      simp only [populateIndices]
      rw [hb]
    rw [hred]
    cases ec path with
    | none => exact Or.inl rfl
    | some ts =>
      cases ts with
      | nil => exact Or.inr (Or.inl rfl)
      | cons t rest => exact Or.inr (Or.inr ⟨t :: rest, rfl⟩)

/-- One face preserves the index-validity invariant whenever every
position row of the mesh has three entries. -/
theorem tessellateFace_inv (ec : Earcut) (m : Brep) (f : ℕ)
    (hrows : ∀ row ∈ m.positions, row.length = 3)
    (s s' : TessState) (hinv : TessInv s)
    (h : tessellateFace ec m f s = (.ok (), s')) : TessInv s' := by
  unfold tessellateFace at h
  dsimp only at h
  split at h
  · exact Except.noConfusion (congrArg Prod.fst h)
  · rename_i faceVs hfv
    split at h
    · exact Except.noConfusion (congrArg Prod.fst h)
    · rename_i newVer pd hpp
      injection h with h1 h2
      subst h2
      rcases populatePositions_ok _ s.verData newVer pd hpp with ⟨hnv, hall⟩
      have hrowlen : ∀ r ∈ (faceVs.map (fun v? =>
          match v? with
          | none => none
          | some v => m.positions.get? (vrecD m v).index)).map
            (fun r => r.getD []), r.length = 3 := by
        intro r hr
        rcases List.mem_map.mp hr with ⟨x, hxmem, rfl⟩
        cases hx : x with
        | none => exact absurd hx (hall x hxmem)
        | some row =>
          rcases List.mem_map.mp hxmem with ⟨v?, hvmem, hgx⟩
          cases v? with
          | none => rw [hx] at hgx; exact Option.noConfusion hgx
          | some v =>
            rw [hx] at hgx
            have hrowmem : row ∈ m.positions := List.get?_mem hgx
            simp only [hx, Option.getD_some]
            exact hrows row hrowmem
      have hjoin : ((faceVs.map (fun v? =>
          match v? with
          | none => none
          | some v => m.positions.get? (vrecD m v).index)).map
            (fun r => r.getD [])).join.length =
          3 * ((faceVs.map (fun v? =>
          match v? with
          | none => none
          | some v => m.positions.get? (vrecD m v).index)).map
            (fun r => r.getD [])).length :=
        join_length_three _ hrowlen
      have hnewlen : newVer.length = s.verData.length +
          3 * ((faceVs.map (fun v? =>
          match v? with
          | none => none
          | some v => m.positions.get? (vrecD m v).index)).map
            (fun r => r.getD [])).length := by
        rw [hnv, List.length_append, hjoin]
      constructor
      · intro i hi
        dsimp only at hi ⊢
        rcases populateIndices_cases ec ((faceVs.map (fun v? =>
            match v? with
            | none => none
            | some v => m.positions.get? (vrecD m v).index)).map
              (fun r => r.getD []))
            ({ s with
              faceFacetMapping :=
                setAssoc s.faceFacetMapping (frecD m f).index []
              verData := newVer }) with hcase | hcase | ⟨ts, hcase⟩
        · rw [hcase] at hi
          dsimp only at hi
          rcases List.mem_append.mp hi with hold | hfan
          · have hb := hinv.1 i hold
            omega
          · have hf := fanIndices_lt s.nBabylonVertices _ i hfan
            have h2 := hinv.2
            omega
        · rw [hcase] at hi
          dsimp only at hi
          have hb := hinv.1 i hi
          omega
        · rw [hcase] at hi
          dsimp only at hi
          rcases guardedAppend_mem s.nBabylonVertices newVer.length
              s.indices ts i hi with hold | hlt
          · have hb := hinv.1 i hold
            omega
          · have h3 : 3 * (newVer.length / 3) ≤ newVer.length :=
              Nat.mul_div_le newVer.length 3
            omega
      · dsimp only
        have h2 := hinv.2
        have hdiv : newVer.length = 3 * (s.nBabylonVertices +
            ((faceVs.map (fun v? =>
            match v? with
            | none => none
            | some v => m.positions.get? (vrecD m v).index)).map
              (fun r => r.getD [])).length) := by
          omega
        rw [hdiv, Nat.mul_div_cancel_left _ (by norm_num)]

/-- The invariant is carried across the whole face loop. -/
theorem forEachFaces_inv (ec : Earcut) (m : Brep)
    (hrows : ∀ row ∈ m.positions, row.length = 3) :
    ∀ (faces : List ℕ) (s s' : TessState), TessInv s →
      forEachE faces (fun f => tessellateFace ec m f) s = (.ok (), s') →
      TessInv s' := by
  intro faces
  induction faces with
  | nil =>
    intro s s' hinv h
    unfold forEachE at h
    injection h with h1 h2
    subst h2
    exact hinv
  | cons f rest ih =>
    intro s s' hinv h
    unfold forEachE at h
    dsimp only at h
    cases hf : tessellateFace ec m f s with
    | mk q s1 =>
      rw [hf] at h
      cases q with
      | error e => exact Except.noConfusion (congrArg Prod.fst h)
      | ok u =>
        cases u
        exact ih s1 s' (tessellateFace_inv ec m f hrows s s1 hinv hf) h

/-- C8: every element of the index buffer produced by
`Tessellator.tessellate` is a valid vertex index, strictly below the
number of vertices of the emitted position buffer (its length divided by
three), on the guarded earcut path as much as on the fan-fallback path,
for every earcut oracle and every mesh whose position rows are `[x,y,z]`
triples. -/
theorem indices_reference_valid_vertices (ec : Earcut) (cn : ComputeNormals)
    (m : Brep) (s s' : TessState) (r : TessResult)
    (hrows : ∀ row ∈ m.positions, row.length = 3)
    (hok : tessellate ec cn (some m) s = (.ok r, s'))
    (g : Geometry) (hg : r.geometry = some g) :
    ∀ i ∈ g.indices, 3 * i < g.positions.length := by
  unfold tessellate at hok
  dsimp only at hok
  cases hfe : forEachE m.faces (fun f => tessellateFace ec m f) flush with
  | mk q st =>
    rw [hfe] at hok
    cases q with
    | error e => exact Except.noConfusion (congrArg Prod.fst hok)
    | ok u =>
      cases u
      have hinv0 : TessInv flush := by
        constructor
        · intro i hi
          exact absurd hi (List.not_mem_nil i)
        · rfl
      have hinv : TessInv st :=
        forEachFaces_inv ec m hrows m.faces flush st hinv0 hfe
      injection hok with h1 h2
      injection h1 with h1
      have hr : r = { geometry := some { positions := st.verData
                                         uvs := st.uvData
                                         indices := st.indices
                                         normals := cn st.verData st.indices }
                      faceFacetMapping := some st.faceFacetMapping } := h1.symm
      rw [hr] at hg
      have hgeq : g = { positions := st.verData
                        uvs := st.uvData
                        indices := st.indices
                        normals := cn st.verData st.indices } :=
        ((Option.some.injEq _ _).mp hg).symm
      rw [hgeq]
      exact hinv.1

/-- C8 witness: the triangle mesh with an earcut oracle emitting one
out-of-range index (filtered by the guard) and three valid ones; each
emitted index is checked against the emitted position buffer. -/
theorem indices_reference_valid_vertices_witness :
    3 * 0 < ([0, 0, 0, 1, 0, 0, 0, 0, 1] : List ℚ).length ∧
    3 * 1 < ([0, 0, 0, 1, 0, 0, 0, 0, 1] : List ℚ).length ∧
    3 * 2 < ([0, 0, 0, 1, 0, 0, 0, 0, 1] : List ℚ).length :=
  ⟨indices_reference_valid_vertices (fun _ => some [0, 1, 2, 5]) (fun _ _ => [])
    triMesh flush
    { verData := [0, 0, 0, 1, 0, 0, 0, 0, 1], indices := [0, 1, 2],
      uvData := [], faceFacetMapping := [(0, [])], facetID := -1,
      nBabylonVertices := 3 }
    { geometry := some { positions := [0, 0, 0, 1, 0, 0, 0, 0, 1], uvs := [],
                         indices := [0, 1, 2], normals := [] }
      faceFacetMapping := some [(0, [])] }
    (by decide) (by decide)
    { positions := [0, 0, 0, 1, 0, 0, 0, 0, 1], uvs := [],
      indices := [0, 1, 2], normals := [] }
    (by decide) 0 (by decide),
   indices_reference_valid_vertices (fun _ => some [0, 1, 2, 5]) (fun _ _ => [])
    triMesh flush
    { verData := [0, 0, 0, 1, 0, 0, 0, 0, 1], indices := [0, 1, 2],
      uvData := [], faceFacetMapping := [(0, [])], facetID := -1,
      nBabylonVertices := 3 }
    { geometry := some { positions := [0, 0, 0, 1, 0, 0, 0, 0, 1], uvs := [],
                         indices := [0, 1, 2], normals := [] }
      faceFacetMapping := some [(0, [])] }
    (by decide) (by decide)
    { positions := [0, 0, 0, 1, 0, 0, 0, 0, 1], uvs := [],
      indices := [0, 1, 2], normals := [] }
    (by decide) 1 (by decide),
   indices_reference_valid_vertices (fun _ => some [0, 1, 2, 5]) (fun _ _ => [])
    triMesh flush
    { verData := [0, 0, 0, 1, 0, 0, 0, 0, 1], indices := [0, 1, 2],
      uvData := [], faceFacetMapping := [(0, [])], facetID := -1,
      nBabylonVertices := 3 }
    { geometry := some { positions := [0, 0, 0, 1, 0, 0, 0, 0, 1], uvs := [],
                         indices := [0, 1, 2], normals := [] }
      faceFacetMapping := some [(0, [])] }
    (by decide) (by decide)
    { positions := [0, 0, 0, 1, 0, 0, 0, 0, 1], uvs := [],
      indices := [0, 1, 2], normals := [] }
    (by decide) 2 (by decide)⟩

/-- C9: `orderVerticesByAngle` returns a permutation of its input index
list (the same multiset, reordered by the angle key), and returns the
input unchanged whenever it has fewer than 3 entries. -/
theorem orderVerticesByAngle_perm (key : AngleKey) (idx : List ℕ)
    (pos : List (List ℚ)) :
    (orderVerticesByAngle key idx pos).Perm idx ∧
    (idx.length < 3 → orderVerticesByAngle key idx pos = idx) := by
  constructor
  · by_cases h : idx.length < 3
    · simp [orderVerticesByAngle, h]
    · have h1 := List.perm_insertionSort (fun a b : ℕ × ℚ => a.2 ≤ b.2)
        (idx.enum.map (fun p => (p.2, key p.2 p.1)))
      have h2 := h1.map (fun v : ℕ × ℚ => v.1)
      have h3 : ((idx.enum.map (fun p => (p.2, key p.2 p.1))).map
          (fun v : ℕ × ℚ => v.1)) = idx := by
        rw [List.map_map]
        exact List.enum_map_snd idx
      rw [h3] at h2
      simpa [orderVerticesByAngle, h] using h2
  · intro h
    simp [orderVerticesByAngle, h]

/-- C9 witness: a concrete permutation run and a concrete short input. -/
theorem orderVerticesByAngle_perm_witness :
    (orderVerticesByAngle (fun v _ => (v : ℚ)) [3, 1, 2] []).Perm [3, 1, 2] ∧
    orderVerticesByAngle (fun v _ => (v : ℚ)) [5, 7] [] = [5, 7] :=
  ⟨(orderVerticesByAngle_perm (fun v _ => (v : ℚ)) [3, 1, 2] []).1,
   (orderVerticesByAngle_perm (fun v _ => (v : ℚ)) [5, 7] []).2 (by decide)⟩

/-- The `filter` of `findVertexBelow` keeps exactly the defined neighbors
whose row passes the strict Y comparison. -/
theorem filterBelow_mem (m : Brep) (sel : ℕ) :
    ∀ l res, filterBelow m sel l = .ok res →
      ∀ u, u ∈ res ↔ (some u ∈ l ∧ isBelow m sel u) := by
  intro l
  induction l with
  | nil =>
    intro res h u
    cases h
    simp
  | cons hd rest ih =>
    intro res h u
    cases hd with
    | none => exact absurd h (by simp [filterBelow])
    | some v =>
      cases hrow : m.positions.get? (vrecD m v).index with
      | none =>
        exact absurd h (by
          simp only [filterBelow, hrow]
          exact fun hc => Except.noConfusion hc)
      | some row =>
        cases hsel : m.positions.get? (vrecD m sel).index with
        | none =>
          exact absurd h (by
            simp only [filterBelow, hrow, hsel]
            exact fun hc => Except.noConfusion hc)
        | some selRow =>
          cases hrest : filterBelow m sel rest with
          | error e =>
            exact absurd h (by
              simp only [filterBelow, hrow, hsel, hrest]
              exact fun hc => Except.noConfusion hc)
          | ok rest' =>
            simp only [filterBelow, hrow, hsel, hrest, Except.ok.injEq] at h
            have hbel : isBelow m sel v = (match row.get? 1, selRow.get? 1 with
                | some a, some b => decide (a < b)
                | _, _ => false) := by
              simp only [isBelow, hrow, hsel]
            by_cases hk : (match row.get? 1, selRow.get? 1 with
                | some a, some b => decide (a < b)
                | _, _ => false) = true
            · rw [if_pos hk] at h
              rw [← h]
              constructor
              · intro hu
                rcases List.mem_cons.mp hu with rfl | hu'
                · exact ⟨List.mem_cons_self _ _, by rw [hbel]; exact hk⟩
                · rcases (ih rest' hrest u).mp hu' with ⟨hmem, hb⟩
                  exact ⟨List.mem_cons_of_mem _ hmem, hb⟩
              · rintro ⟨hmem, hb⟩
                rcases List.mem_cons.mp hmem with heq | hmem'
                · cases heq
                  exact List.mem_cons_self _ _
                · exact List.mem_cons_of_mem _ ((ih rest' hrest u).mpr ⟨hmem', hb⟩)
            · rw [if_neg hk] at h
              rw [← h]
              constructor
              · intro hu
                rcases (ih rest' hrest u).mp hu with ⟨hmem, hb⟩
                exact ⟨List.mem_cons_of_mem _ hmem, hb⟩
              · rintro ⟨hmem, hb⟩
                rcases List.mem_cons.mp hmem with heq | hmem'
                · cases heq
                  rw [hbel] at hb
                  exact absurd hb hk
                · exact (ih rest' hrest u).mpr ⟨hmem', hb⟩

/-- C6: `findVertexBelow` returns null exactly when no topological
neighbor lies strictly below the selected vertex, and otherwise returns a
neighbor strictly below whose Y-coordinate is minimal among all neighbors
strictly below. -/
theorem findVertexBelow_min (m : Brep) (v : ℕ) (r : Option ℕ)
    (ns : List (Option ℕ))
    (hns : vertexNeighborsQ m v = .ok ns)
    (h : findVertexBelow m v = .ok r) :
    (r = none ↔ ∀ u, some u ∈ ns → ¬ isBelow m v u) ∧
    (∀ w, r = some w → some w ∈ ns ∧ isBelow m v w ∧
      ∀ u, some u ∈ ns → isBelow m v u → getYD m w ≤ getYD m u) := by
  simp only [findVertexBelow, hns] at h
  cases hfb : filterBelow m v ns with
  | error e => rw [hfb] at h; exact absurd h (by simp)
  | ok below =>
    rw [hfb] at h
    have hchar := filterBelow_mem m v ns below hfb
    have hperm := List.perm_insertionSort (fun a b => getYD m a ≤ getYD m b) below
    cases hs : below.insertionSort (fun a b => getYD m a ≤ getYD m b) with
    | nil =>
      simp only [hs] at h
      rw [hs] at hperm
      cases h
      have hbelow : below = [] := hperm.symm.eq_nil
      refine ⟨⟨fun _ u hu hb => ?_, fun _ => rfl⟩, fun w hw => absurd hw (by simp)⟩
      have hub : u ∈ below := (hchar u).mpr ⟨hu, hb⟩
      rw [hbelow] at hub
      exact absurd hub (List.not_mem_nil u)
    | cons w t =>
      simp only [hs] at h
      rw [hs] at hperm
      cases h
      have hw : w ∈ below := hperm.mem_iff.mp (List.mem_cons_self w t)
      letI : IsTotal ℕ (fun a b => getYD m a ≤ getYD m b) :=
        ⟨fun a b => le_total _ _⟩
      letI : IsTrans ℕ (fun a b => getYD m a ≤ getYD m b) :=
        ⟨fun a b c hab hbc => le_trans hab hbc⟩
      have hsorted := List.sorted_insertionSort
        (fun a b => getYD m a ≤ getYD m b) below
      rw [hs] at hsorted
      have hmin : ∀ u ∈ below, getYD m w ≤ getYD m u := by
        intro u hu
        rcases List.mem_cons.mp (hperm.symm.mem_iff.mp hu) with rfl | hu'
        · exact le_refl _
        · exact List.rel_of_sorted_cons hsorted u hu'
      constructor
      · constructor
        · intro hcontra; exact absurd hcontra (by simp)
        · intro hall
          rcases (hchar w).mp hw with ⟨hmem, hb⟩
          exact absurd hb (hall w hmem)
      · intro w' hw'
        cases hw'
        rcases (hchar w).mp hw with ⟨hmem, hb⟩
        refine ⟨hmem, hb, ?_⟩
        intro u hu hub
        exact hmin u ((hchar u).mpr ⟨hu, hub⟩)

/-- C6 witness: the doubled triangle, selecting vertex 1 (neighbors 2 at
the same height and 0 strictly below): vertex 0 is returned. -/
theorem findVertexBelow_min_witness :
    ((some 0 : Option ℕ) = none ↔
      ∀ u, some u ∈ [some 2, some 0] → ¬ isBelow dblTri 1 u) ∧
    (∀ w, (some 0 : Option ℕ) = some w → some w ∈ [some 2, some 0] ∧
      isBelow dblTri 1 w ∧
      ∀ u, some u ∈ [some 2, some 0] → isBelow dblTri 1 u →
        getYD dblTri w ≤ getYD dblTri u) :=
  findVertexBelow_min dblTri 1 (some 0) [some 2, some 0] (by decide) (by decide)

end SnapBrep
